import Mathlib

/-!
Verification of the healthcare hash-chain ledger (`src/HEALTHCARE.py`).

This file shallowly embeds the core of the program — the `Block` dataclass
with its `compute_hash` / `create` constructors and the `Blockchain` class
with `add_record`, `get_all_records`, `get_latest_record` and `validate` —
as executable Lean definitions, and proves the specified properties about
them.

Embedding conventions:
* Python `dict`-shaped JSON payloads become the `JsonVal` inductive.  A
  Python value that `json.dumps` cannot serialize (it raises `TypeError`)
  is modelled by the `JsonVal.nonser` constructor; serialization is the
  `Option`-valued `dumpsVal`, returning `none` exactly where Python raises.
* `json.dumps(payload, sort_keys=True, separators=(",", ":"))` with its
  default `ensure_ascii=True` is embedded byte-for-byte: object keys are
  sorted (Python compares strings by code points), no insignificant
  whitespace, strings escaped exactly as `json.encoder` does.
* `hashlib.sha256(...).hexdigest()` is embedded as a full executable
  SHA-256 over byte lists (`Nat` arithmetic mod `2 ^ 32`), with the
  lowercase hexadecimal rendering.
* `dt.datetime.now().isoformat(timespec="seconds")` is real time and is
  not computable in the embedding: every operation that stamps a block
  takes the timestamp string as an explicit argument.
* Exceptions (`TypeError` from `json.dumps`, `IndexError` from `[-1]` on
  an empty list) become `Except String` results; state-mutating methods
  return the successor state instead of mutating in place.
-/

/-! # JSON-like values and Python's canonical serialization -/

/-- A JSON-like Python value: the payload type of `record`.  `nonser`
stands for a Python value that `json.dumps` cannot serialize (a set, a
custom object, ...); every other constructor matches a JSON type.  An
object keeps its key/value pairs in insertion order, as a Python `dict`
does. -/
inductive JsonVal where
  | str : String → JsonVal
  | int : Int → JsonVal
  | bool : Bool → JsonVal
  | null : JsonVal
  | arr : List JsonVal → JsonVal
  | obj : List (String × JsonVal) → JsonVal
  | nonser : JsonVal

/-- One lowercase hexadecimal digit, as Python renders nibbles. -/
def hexDigit (n : Nat) : Char :=
  if n < 10 then Char.ofNat (48 + n) else Char.ofNat (87 + n)

/-- Four lowercase hex digits, the `XXXX` of a `\uXXXX` escape. -/
def hex4 (n : Nat) : List Char :=
  [hexDigit (n / 4096 % 16), hexDigit (n / 256 % 16),
   hexDigit (n / 16 % 16), hexDigit (n % 16)]

/-- Escape one character the way `json.dumps` with its default
`ensure_ascii=True` does (CPython's `py_encode_basestring_ascii`): the
named escapes for `"`, `\`, backspace, tab, newline, form feed and
carriage return; printable ASCII `0x20`–`0x7e` verbatim; everything else
as `\uXXXX`, using a surrogate pair above `0xffff`. -/
def escChar (c : Char) : List Char :=
  if c = '"' then ['\\', '"']
  else if c = '\\' then ['\\', '\\']
  else if c = Char.ofNat 8 then ['\\', 'b']
  else if c = Char.ofNat 9 then ['\\', 't']
  else if c = Char.ofNat 10 then ['\\', 'n']
  else if c = Char.ofNat 12 then ['\\', 'f']
  else if c = Char.ofNat 13 then ['\\', 'r']
  else if 0x20 ≤ c.toNat ∧ c.toNat ≤ 0x7e then [c]
  else if c.toNat < 0x10000 then '\\' :: 'u' :: hex4 c.toNat
  else
    '\\' :: 'u' :: hex4 (0xd800 + (c.toNat - 0x10000) / 0x400) ++
      ('\\' :: 'u' :: hex4 (0xdc00 + (c.toNat - 0x10000) % 0x400))

/-- A JSON string literal: quote, escaped characters, quote. -/
def encStr (s : String) : String :=
  String.mk ('"' :: s.data.flatMap escChar ++ ['"'])

/-- Code-point comparison of character lists: the order Python uses on
strings.  Written as a structurally recursive boolean so that it (unlike
`String.ltb`, which iterates over byte positions) evaluates inside the
kernel; it agrees with `List.lt` and hence with `String.le` (proved
below). -/
def charListLe : List Char → List Char → Bool
  | [], _ => true
  | _ :: _, [] => false
  | c :: cs, d :: ds =>
    if c.toNat < d.toNat then true
    else if d.toNat < c.toNat then false
    else charListLe cs ds

/-- Python's string comparison by code points (equivalent to `String.le`). -/
def strLe (a b : String) : Bool := charListLe a.data b.data

/-- Insert a rendered key/value pair into a list sorted by key.  Python's
`sorted` on the (distinct) keys of a dict orders them by code points,
which is exactly `String.le` (= `strLe`). -/
def insertPair (p : String × String) : List (String × String) → List (String × String)
  | [] => [p]
  | q :: qs => if strLe p.1 q.1 then p :: q :: qs else q :: insertPair p qs

/-- Sort rendered key/value pairs by key (insertion sort).  This models
the `sort_keys=True` of `json.dumps`: the serializer emits a dict's
entries in ascending key order.  Sorting the pairs after rendering the
values is equivalent to Python's sorting the keys before rendering,
because the comparison never looks at the values. -/
def sortPairs : List (String × String) → List (String × String)
  | [] => []
  | p :: ps => insertPair p (sortPairs ps)

/-- Join rendered items with the `","` item separator of
`separators=(",", ":")` — no insignificant whitespace. -/
def joinComma : List String → String
  | [] => ""
  | [s] => s
  | s :: rest => s ++ "," ++ joinComma rest

mutual
/-- The embedding of `json.dumps(v, sort_keys=True, separators=(",", ":"))`
(default `ensure_ascii=True`): `none` exactly where Python raises
`TypeError`, otherwise the serialized text.  Dict entries are rendered
and then emitted in ascending key order with `":"` between key and
value. -/
def dumpsVal : JsonVal → Option String
  | .str s => some (encStr s)
  | .int n => some (toString n)
  | .bool b => some (if b then "true" else "false")
  | .null => some ("null")
  | .nonser => none
  | .arr xs =>
    match dumpsList xs with
    | none => none
    | some ss => some ("[" ++ joinComma ss ++ "]")
  | .obj kvs =>
    match dumpsPairs kvs with
    | none => none
    | some rs =>
      some ("\x7b" ++
        joinComma ((sortPairs rs).map (fun p => encStr p.1 ++ ":" ++ p.2)) ++ "\x7d")
termination_by v => sizeOf v

/-- Serialize the elements of a JSON array, failing if any element fails. -/
def dumpsList : List JsonVal → Option (List String)
  | [] => some []
  | v :: vs =>
    match dumpsVal v, dumpsList vs with
    | some s, some ss => some (s :: ss)
    | _, _ => none
termination_by vs => sizeOf vs

/-- Render each dict entry to (key, serialized value), failing if any
value fails. -/
def dumpsPairs : List (String × JsonVal) → Option (List (String × String))
  | [] => some []
  | (k, v) :: kvs =>
    match dumpsVal v, dumpsPairs kvs with
    | some s, some rs => some ((k, s) :: rs)
    | _, _ => none
termination_by kvs => sizeOf kvs
end

mutual
/-- Decides whether `json.dumps` succeeds on the value: `false` exactly
when a `nonser` occurs somewhere inside. -/
def serializable : JsonVal → Bool
  | .str _ => true
  | .int _ => true
  | .bool _ => true
  | .null => true
  | .nonser => false
  | .arr xs => serializableList xs
  | .obj kvs => serializablePairs kvs
termination_by v => sizeOf v

/-- All array elements serializable. -/
def serializableList : List JsonVal → Bool
  | [] => true
  | v :: vs => serializable v && serializableList vs
termination_by vs => sizeOf vs

/-- All dict values serializable. -/
def serializablePairs : List (String × JsonVal) → Bool
  | [] => true
  | (_, v) :: kvs => serializable v && serializablePairs kvs
termination_by kvs => sizeOf kvs
end

/-- UTF-8 bytes of one character (standard 1–4 byte encoding); the
embedding of Python's `str.encode("utf-8")` applied character-wise. -/
def utf8Char (c : Char) : List Nat :=
  let n := c.toNat
  if n < 0x80 then [n]
  else if n < 0x800 then [0xc0 + n / 64, 0x80 + n % 64]
  else if n < 0x10000 then [0xe0 + n / 4096, 0x80 + n / 64 % 64, 0x80 + n % 64]
  else [0xf0 + n / 0x40000, 0x80 + n / 4096 % 64, 0x80 + n / 64 % 64, 0x80 + n % 64]

/-- UTF-8 encoding of a string as a byte list. -/
def utf8Encode (s : String) : List Nat :=
  s.data.flatMap utf8Char

/-! # SHA-256 (FIPS 180-4) over byte lists

Machine words are `Nat` reduced mod `2 ^ 32`; all inputs of the word
operations are kept below `2 ^ 32`. -/

/-- The 32-bit modulus. -/
def M32 : Nat := 4294967296

/-- Right rotation of a 32-bit word by `n` places. -/
def rotr (n x : Nat) : Nat := (x / 2 ^ n + x % 2 ^ n * 2 ^ (32 - n)) % M32

/-- Bitwise complement of a 32-bit word. -/
def not32 (x : Nat) : Nat := (M32 - 1) - x

/-- The choice function `Ch(x,y,z)`. -/
def chFun (x y z : Nat) : Nat := (x &&& y) ^^^ (not32 x &&& z)

/-- The majority function `Maj(x,y,z)`. -/
def majFun (x y z : Nat) : Nat := (x &&& y) ^^^ (x &&& z) ^^^ (y &&& z)

/-- Big sigma 0. -/
def bsig0 (x : Nat) : Nat := rotr 2 x ^^^ rotr 13 x ^^^ rotr 22 x

/-- Big sigma 1. -/
def bsig1 (x : Nat) : Nat := rotr 6 x ^^^ rotr 11 x ^^^ rotr 25 x

/-- Small sigma 0. -/
def ssig0 (x : Nat) : Nat := rotr 7 x ^^^ rotr 18 x ^^^ x / 2 ^ 3

/-- Small sigma 1. -/
def ssig1 (x : Nat) : Nat := rotr 17 x ^^^ rotr 19 x ^^^ x / 2 ^ 10

/-- The eight-word SHA-256 working state. -/
structure Sha256State where
  a : Nat
  b : Nat
  c : Nat
  d : Nat
  e : Nat
  f : Nat
  g : Nat
  h : Nat

/-- The initial hash value `H⁽⁰⁾`. -/
def sha256Init : Sha256State :=
  ⟨0x6a09e667, 0xbb67ae85, 0x3c6ef372, 0xa54ff53a,
   0x510e527f, 0x9b05688c, 0x1f83d9ab, 0x5be0cd19⟩

/-- The 64 round constants `K`. -/
def sha256K : List Nat :=
  [1116352408, 1899447441, 3049323471, 3921009573, 961987163, 1508970993,
   2453635748, 2870763221, 3624381080, 310598401, 607225278, 1426881987,
   1925078388, 2162078206, 2614888103, 3248222580, 3835390401, 4022224774,
   264347078, 604807628, 770255983, 1249150122, 1555081692, 1996064986,
   2554220882, 2821834349, 2952996808, 3210313671, 3336571891, 3584528711,
   113926993, 338241895, 666307205, 773529912, 1294757372, 1396182291,
   1695183700, 1986661051, 2177026350, 2456956037, 2730485921, 2820302411,
   3259730800, 3345764771, 3516065817, 3600352804, 4094571909, 275423344,
   430227734, 506948616, 659060556, 883997877, 958139571, 1322822218,
   1537002063, 1747873779, 1955562222, 2024104815, 2227730452, 2361852424,
   2428436474, 2756734187, 3204031479, 3329325298]

/-- One round of the compression function, consuming one `(K, W)` pair. -/
def sha256Round (st : Sha256State) (kw : Nat × Nat) : Sha256State :=
  let t1 := (st.h + bsig1 st.e + chFun st.e st.f st.g + kw.1 + kw.2) % M32
  let t2 := (bsig0 st.a + majFun st.a st.b st.c) % M32
  ⟨(t1 + t2) % M32, st.a, st.b, st.c, (st.d + t1) % M32, st.e, st.f, st.g⟩

/-- Big-endian 32-bit words from a byte list (the 16 words of a chunk). -/
def wordsOf : List Nat → List Nat
  | b0 :: b1 :: b2 :: b3 :: rest =>
    (b0 * 0x1000000 + b1 * 0x10000 + b2 * 0x100 + b3) :: wordsOf rest
  | _ => []

/-- The word `k` places from the end of the schedule built so far. -/
def wAt (ws : List Nat) (k : Nat) : Nat := ws.getD (ws.length - k) 0

/-- Extend the 16-word schedule by `n` further words. -/
def extendW : Nat → List Nat → List Nat
  | 0, ws => ws
  | n + 1, ws =>
    extendW n
      (ws ++ [(wAt ws 16 + ssig0 (wAt ws 15) + wAt ws 7 + ssig1 (wAt ws 2)) % M32])

/-- Compress one 64-byte chunk into the running state. -/
def sha256Compress (st : Sha256State) (chunk : List Nat) : Sha256State :=
  let ws := extendW 48 (wordsOf chunk)
  let e := (sha256K.zip ws).foldl sha256Round st
  ⟨(st.a + e.a) % M32, (st.b + e.b) % M32, (st.c + e.c) % M32, (st.d + e.d) % M32,
   (st.e + e.e) % M32, (st.f + e.f) % M32, (st.g + e.g) % M32, (st.h + e.h) % M32⟩

/-- Split a byte list into 64-byte chunks.  The first argument is fuel
bounding the recursion depth so that the definition is structurally
recursive (and hence evaluates inside the kernel); `chunks64` always
supplies enough. -/
def chunks64Go : Nat → List Nat → List (List Nat)
  | _, [] => []
  | 0, _ :: _ => []
  | fuel + 1, x :: rest => (x :: rest).take 64 :: chunks64Go fuel ((x :: rest).drop 64)

/-- Split a byte list into 64-byte chunks. -/
def chunks64 (l : List Nat) : List (List Nat) := chunks64Go l.length l

/-- The 64-bit big-endian byte rendering of the message bit length. -/
def lenBytes (n : Nat) : List Nat :=
  [n / 2 ^ 56 % 256, n / 2 ^ 48 % 256, n / 2 ^ 40 % 256, n / 2 ^ 32 % 256,
   n / 2 ^ 24 % 256, n / 2 ^ 16 % 256, n / 2 ^ 8 % 256, n % 256]

/-- SHA-256 padding: a `0x80` byte, zeros to 56 mod 64, then the bit
length. -/
def padBytes (msg : List Nat) : List Nat :=
  msg ++ 0x80 :: List.replicate ((119 - msg.length % 64) % 64) 0 ++
    lenBytes (msg.length * 8)

/-- Big-endian bytes of one 32-bit word. -/
def wordBytes (w : Nat) : List Nat :=
  [w / 0x1000000 % 256, w / 0x10000 % 256, w / 0x100 % 256, w % 256]

/-- The 32 digest bytes of a final state. -/
def digestBytes (st : Sha256State) : List Nat :=
  wordBytes st.a ++ wordBytes st.b ++ wordBytes st.c ++ wordBytes st.d ++
    wordBytes st.e ++ wordBytes st.f ++ wordBytes st.g ++ wordBytes st.h

/-- SHA-256 digest bytes of a message. -/
def sha256Bytes (msg : List Nat) : List Nat :=
  digestBytes ((chunks64 (padBytes msg)).foldl sha256Compress sha256Init)

/-- The embedding of `hashlib.sha256(msg).hexdigest()`: the digest bytes
rendered as lowercase hexadecimal. -/
def sha256Hex (msg : List Nat) : String :=
  String.mk ((sha256Bytes msg).flatMap (fun b => [hexDigit (b / 16 % 16), hexDigit (b % 16)]))

/-! # The Block dataclass -/

/-- The `Block` dataclass: one hash-committed ledger entry. -/
structure Block where
  index : Nat
  timestamp : String
  patient_id : String
  record : JsonVal
  previous_hash : String
  hash : String

/-- Default used with `List.getD`; Python list indexing on a well-formed
chain never reaches it. -/
def dummyBlock : Block := ⟨0, "", "", .null, "", ""⟩

/-- The `payload` dict of `Block.compute_hash`, in its insertion order
(`index`, `timestamp`, `patient_id`, `record`, `previous_hash`); the
serializer sorts the keys. -/
def hashPayload (index : Nat) (timestamp patient_id : String) (record : JsonVal)
    (previous_hash : String) : JsonVal :=
  .obj [("index", .int index), ("timestamp", .str timestamp),
        ("patient_id", .str patient_id), ("record", record),
        ("previous_hash", .str previous_hash)]

/-- The embedding of `Block.compute_hash`: the SHA-256 lowercase hex
digest of the UTF-8 bytes of the canonical serialization of the payload;
`none` where `json.dumps` raises on an unserializable `record`. -/
def computeHash? (index : Nat) (timestamp patient_id : String) (record : JsonVal)
    (previous_hash : String) : Option String :=
  (dumpsVal (hashPayload index timestamp patient_id record previous_hash)).map
    (fun s => sha256Hex (utf8Encode s))

/-- The embedding of `Block.create`.  The creation timestamp
(`dt.datetime.now().isoformat(timespec="seconds")` in the source) is an
explicit argument; the stored `hash` is computed from the five fields. -/
def Block.create? (index : Nat) (patient_id : String) (record : JsonVal)
    (previous_hash : String) (timestamp : String) : Option Block :=
  (computeHash? index timestamp patient_id record previous_hash).map
    (fun h => ⟨index, timestamp, patient_id, record, previous_hash, h⟩)

/-! # The Blockchain class -/

/-- The `Blockchain` state: the `chain` list and the `_patient_index`
dict.  A Python dict is modelled as an association list in insertion
order with (by construction) distinct keys. -/
structure Blockchain where
  chain : List Block
  patientIndex : List (String × List Nat)

/-- The fixed genesis record `{"note": "Genesis Block"}`. -/
def genesisRecord : JsonVal := .obj [("note", .str ("Genesis Block"))]

/-- The embedding of `Blockchain.__init__` / `_create_genesis_block`: a
one-block chain and an empty patient index.  The genesis record is a
fixed serializable literal, so `Block.create?` always succeeds on it;
the `none` branch is dead code (proved below) and mirrors the fact that
a failed genesis construction would leave no usable object. -/
def Blockchain.init (ts : String) : Blockchain :=
  match Block.create? 0 ("0") genesisRecord ("0") ts with
  | some b => ⟨[b], []⟩
  | none => ⟨[], []⟩

/-- Python `dict.get`: the value of the first (only) entry with the key. -/
def dictGet? : List (String × List Nat) → String → Option (List Nat)
  | [], _ => none
  | (k, l) :: rest, p => if k = p then some l else dictGet? rest p

/-- Python `d.setdefault(pid, []).append(i)`: append `i` to the existing
entry, or insert a new `pid ↦ [i]` entry at the end. -/
def setdefaultAppend : List (String × List Nat) → String → Nat → List (String × List Nat)
  | [], p, i => [(p, [i])]
  | (k, l) :: rest, p, i =>
    if k = p then (k, l ++ [i]) :: rest else (k, l) :: setdefaultAppend rest p i

/-- The embedding of `Blockchain.add_record`, following the statement
order of the source: read the last block's hash (`IndexError` on an
empty chain), build the block (`TypeError` from `json.dumps` on an
unserializable record), then append it to `chain` and its index to the
patient index.  Errors are returned before any state is produced, so a
failing call leaves the chain exactly as it was. -/
def Blockchain.addRecord (bc : Blockchain) (patient_id : String) (record : JsonVal)
    (ts : String) : Except String (Blockchain × Block) :=
  match bc.chain.getLast? with
  | none => .error ("IndexError: list index out of range")
  | some last =>
    match Block.create? bc.chain.length patient_id record last.hash ts with
    | none => .error ("TypeError: record is not JSON serializable")
    | some b =>
      .ok (⟨bc.chain ++ [b], setdefaultAppend bc.patientIndex patient_id b.index⟩, b)

/-- The embedding of `Blockchain.get_all_records`: the blocks at the
indexed positions, in stored order; `[]` when the patient has no entry
(or an empty one). -/
def Blockchain.getAllRecords (bc : Blockchain) (patient_id : String) : List Block :=
  match dictGet? bc.patientIndex patient_id with
  | none => []
  | some indices =>
    if indices = [] then [] else indices.map (fun i => bc.chain.getD i dummyBlock)

/-- The embedding of `Blockchain.get_latest_record`: the last of
`get_all_records`, or `none` when there are none. -/
def Blockchain.getLatestRecord (bc : Blockchain) (patient_id : String) : Option Block :=
  (bc.getAllRecords patient_id).getLast?

/-- The loop of `Blockchain.validate` from position `i` upward: at each
position first the linkage check, then the recomputed-hash check, first
failure wins; a `TypeError` from recomputing the hash of a (tampered,
unserializable) record propagates as `.error`. -/
def validateFrom (chain : List Block) (i : Nat) : Except String (Bool × Option String) :=
  if _h : i < chain.length then
    let prev := chain.getD (i - 1) dummyBlock
    let cur := chain.getD i dummyBlock
    if cur.previous_hash ≠ prev.hash then
      .ok (false, some ("Broken link at index " ++ toString i ++ ": previous_hash mismatch"))
    else
      match computeHash? cur.index cur.timestamp cur.patient_id cur.record cur.previous_hash with
      | none => .error ("TypeError: record is not JSON serializable")
      | some recalculated =>
        if cur.hash ≠ recalculated then
          .ok (false, some ("Hash mismatch at index " ++ toString i ++ ": data was modified"))
        else validateFrom chain (i + 1)
  else .ok (true, none)
termination_by chain.length - i

/-- The embedding of `Blockchain.validate`: walk positions `1..end`. -/
def Blockchain.validate (bc : Blockchain) : Except String (Bool × Option String) :=
  validateFrom bc.chain 1

/-! # Reachable states and out-of-band mutations -/

/-- One `add_record` call: the patient id, the record payload, and the
timestamp the clock hands the new block. -/
structure AddOp where
  pid : String
  record : JsonVal
  ts : String

/-- Run one `add_record` call against a state, keeping the state
unchanged when the call fails (the failing call raises before mutating
anything, so the caller still holds the old state). -/
def Blockchain.addOrKeep (bc : Blockchain) (op : AddOp) : Blockchain :=
  match bc.addRecord op.pid op.record op.ts with
  | .ok (bc2, _) => bc2
  | .error _ => bc

/-- A chain freshly built by construction (genesis timestamp `gts`)
followed by a finite sequence of `add_record` calls. -/
def buildChain (gts : String) (ops : List AddOp) : Blockchain :=
  ops.foldl Blockchain.addOrKeep (Blockchain.init gts)

/-- Replace the element at position `i` (out of range: no change). -/
def listModify {α : Type} (l : List α) (i : Nat) (f : α → α) : List α :=
  match l, i with
  | [], _ => []
  | x :: xs, 0 => f x :: xs
  | x :: xs, n + 1 => x :: listModify xs n f

/-- Out-of-band mutation `bc.chain[i].record = r` (the demo tamper path,
bypassing `add_record`). -/
def tamperRecord (bc : Blockchain) (i : Nat) (r : JsonVal) : Blockchain :=
  ⟨listModify bc.chain i (fun b => { b with record := r }), bc.patientIndex⟩

/-- Out-of-band mutation `bc.chain[i].previous_hash = ph`. -/
def tamperPrevHash (bc : Blockchain) (i : Nat) (ph : String) : Blockchain :=
  ⟨listModify bc.chain i (fun b => { b with previous_hash := ph }), bc.patientIndex⟩

/-- Out-of-band mutation of the genesis block's own non-hash fields:
`bc.chain[0].record = r` and `bc.chain[0].timestamp = ts` (the stored
`hash` and `previous_hash` stay). -/
def tamperGenesis (bc : Blockchain) (r : JsonVal) (ts : String) : Blockchain :=
  ⟨listModify bc.chain 0 (fun b => { b with record := r, timestamp := ts }), bc.patientIndex⟩

/-! # Spec-side derived definitions (for refinement claims) -/

/-- The first failure the specification's validation state machine
reports at position `i`: the linkage check strictly before the
integrity check. -/
def specFailureAt (chain : List Block) (i : Nat) : Option String :=
  if (chain.getD i dummyBlock).previous_hash != (chain.getD (i - 1) dummyBlock).hash then
    some ("Broken link at index " ++ toString i ++ ": previous_hash mismatch")
  else if some (chain.getD i dummyBlock).hash !=
      computeHash? (chain.getD i dummyBlock).index (chain.getD i dummyBlock).timestamp
        (chain.getD i dummyBlock).patient_id (chain.getD i dummyBlock).record
        (chain.getD i dummyBlock).previous_hash then
    some ("Hash mismatch at index " ++ toString i ++ ": data was modified")
  else none

/-- Validation as the specification words it: scan positions `1..end` in
increasing order, stop at the first failing position with its reason,
return ok with no reason when every check passes. -/
def validateSpec (chain : List Block) : Bool × Option String :=
  match ((List.range chain.length).drop 1).findSome? (specFailureAt chain) with
  | some msg => (false, some msg)
  | none => (true, none)

/-- The positions holding patient `p`, scanning every block (the literal
reading of the claim, genesis included). -/
def positionsScan (chain : List Block) (p : String) : List Nat :=
  (List.range chain.length).filter (fun i => (chain.getD i dummyBlock).patient_id == p)

/-- The positions holding patient `p` among the appended blocks only
(positions `1` and up, genesis excluded). -/
def positionsScanFrom1 (chain : List Block) (p : String) : List Nat :=
  ((List.range chain.length).drop 1).filter (fun i => (chain.getD i dummyBlock).patient_id == p)

/-- Wrap a position list the way the patient index represents it:
`none` for no entries, `some` otherwise. -/
def optOfList (l : List Nat) : Option (List Nat) :=
  if l = [] then none else some l

/-- A block whose stored `hash` is exactly `compute_hash` of its stored
fields — the per-block half of the chain invariant. -/
def BlockOK (b : Block) : Prop :=
  computeHash? b.index b.timestamp b.patient_id b.record b.previous_hash = some b.hash

/-- Everything `validate` reads beyond position `0`'s stored `hash`:
every appended block carries its true index, satisfies `BlockOK`, and
links to its predecessor's stored hash.  Freshly built chains satisfy
it; out-of-band mutation can break it. -/
structure ChainLinked (chain : List Block) : Prop where
  idx : ∀ i, i < chain.length → (chain.getD i dummyBlock).index = i
  ok : ∀ i, 1 ≤ i → i < chain.length → BlockOK (chain.getD i dummyBlock)
  link : ∀ i, i + 1 < chain.length →
    (chain.getD (i + 1) dummyBlock).previous_hash = (chain.getD i dummyBlock).hash

mutual
/-- The claim's record equivalence: the two values contain the same
key/value pairs at every nesting level, differing only in the insertion
order of (distinct-keyed) mappings; array order and all scalar values
are identical. -/
def jsonEquiv : JsonVal → JsonVal → Prop
  | .arr xs, .arr ys => jsonEquivList xs ys
  | .obj kvs, .obj kvs2 =>
    (kvs.map Prod.fst).Nodup ∧ ∃ mid, jsonEquivPairs kvs mid ∧ mid.Perm kvs2
  | v, w => v = w
termination_by v _ => sizeOf v

/-- Pointwise equivalence of array elements. -/
def jsonEquivList : List JsonVal → List JsonVal → Prop
  | [], [] => True
  | x :: xs, y :: ys => jsonEquiv x y ∧ jsonEquivList xs ys
  | _, _ => False
termination_by xs _ => sizeOf xs

/-- Pointwise equivalence of mapping entries: equal keys, equivalent
values. -/
def jsonEquivPairs : List (String × JsonVal) → List (String × JsonVal) → Prop
  | [], [] => True
  | (k, v) :: kvs, (k2, v2) :: kvs2 => k = k2 ∧ jsonEquiv v v2 ∧ jsonEquivPairs kvs kvs2
  | _, _ => False
termination_by kvs _ => sizeOf kvs
end

/-- Big-endian base-256 value of a byte list (used to count digests). -/
def digestNat (bs : List Nat) : Nat :=
  bs.foldl (fun a b => a * 256 + b) 0

/-- The low `k` binary digits of `n` over the alphabet `a`/`b`, least
significant first (used to build families of distinct payloads). -/
def abList : Nat → Nat → List Char
  | 0, _ => []
  | k + 1, n => (if n % 2 = 0 then 'a' else 'b') :: abList k (n / 2)

/-- A string of `a`s and `b`s encoding `n < 2 ^ k`. -/
def abString (k n : Nat) : String := String.mk (abList k n)

/-! # Digest shape lemmas -/

theorem wordBytes_lt (w : Nat) : ∀ b ∈ wordBytes w, b < 256 := by
  intro b hb
  simp [wordBytes] at hb
  rcases hb with rfl | rfl | rfl | rfl <;> omega

theorem digestBytes_lt (st : Sha256State) : ∀ b ∈ digestBytes st, b < 256 := by
  intro b hb
  simp only [digestBytes, List.mem_append] at hb
  rcases hb with ((((((h | h) | h) | h) | h) | h) | h) | h <;> exact wordBytes_lt _ _ h

theorem sha256Bytes_lt (m : List Nat) : ∀ b ∈ sha256Bytes m, b < 256 :=
  digestBytes_lt _

theorem sha256Bytes_length (m : List Nat) : (sha256Bytes m).length = 32 := by
  simp [sha256Bytes, digestBytes, wordBytes]

theorem flatMap_pair_length {α β : Type} (f g : α → β) (l : List α) :
    (l.flatMap (fun b => [f b, g b])).length = 2 * l.length := by
  induction l with
  | nil => rfl
  | cons x xs ih => simp [List.flatMap_cons] at *; omega

theorem sha256Hex_data (m : List Nat) : (sha256Hex m).data =
    (sha256Bytes m).flatMap (fun b => [hexDigit (b / 16 % 16), hexDigit (b % 16)]) := rfl

theorem sha256Hex_length (m : List Nat) : (sha256Hex m).length = 64 := by
  show (sha256Hex m).data.length = 64
  rw [sha256Hex_data, flatMap_pair_length, sha256Bytes_length]

theorem hexDigit_mem (n : Nat) (h : n < 16) : hexDigit n ∈ ("0123456789abcdef").data := by
  interval_cases n <;> decide

theorem sha256Hex_hexchars (m : List Nat) :
    ∀ c ∈ (sha256Hex m).data, c ∈ ("0123456789abcdef").data := by
  intro c hc
  rw [sha256Hex_data, List.mem_flatMap] at hc
  obtain ⟨b, _, hcb⟩ := hc
  simp at hcb
  rcases hcb with rfl | rfl <;> exact hexDigit_mem _ (by omega)

/-! # Serialization success lemmas -/

theorem dumps_isSome_all :
    (∀ v, (dumpsVal v).isSome = serializable v) ∧
    ((∀ kvs, (dumpsPairs kvs).isSome = serializablePairs kvs) ∧
     (∀ xs, (dumpsList xs).isSome = serializableList xs)) := by
  refine dumpsVal.mutual_induct
    (fun v => (dumpsVal v).isSome = serializable v)
    (fun kvs => (dumpsPairs kvs).isSome = serializablePairs kvs)
    (fun xs => (dumpsList xs).isSome = serializableList xs)
    ?_ ?_ ?_ ?_ ?_ ?_ ?_ ?_ ?_ ?_ ?_ ?_ ?_ ?_ ?_
  case _ => intro s; simp [dumpsVal, serializable]
  case _ => intro n; simp [dumpsVal, serializable]
  case _ => intro b; simp [dumpsVal, serializable]
  case _ => simp [dumpsVal, serializable]
  case _ => simp [dumpsVal, serializable]
  case _ => intro xs hn ih; rw [dumpsVal, serializable, ← ih, hn]; simp
  case _ => intro xs ss hs ih; rw [dumpsVal, serializable, ← ih, hs]; simp
  case _ => intro kvs hn ih; rw [dumpsVal, serializable, ← ih, hn]; simp
  case _ => intro kvs rs hs ih; rw [dumpsVal, serializable, ← ih, hs]; simp
  case _ => simp [dumpsPairs, serializablePairs]
  case _ =>
    intro k v kvs s rs hrs hsv ih ih2
    rw [dumpsPairs, serializablePairs, ← ih, ← ih2, hrs, hsv]; simp
  case _ =>
    intro k v kvs hfail ih ih2
    rw [dumpsPairs, serializablePairs, ← ih, ← ih2]
    cases hv : dumpsVal v <;> cases hk : dumpsPairs kvs <;> simp
  case _ => simp [dumpsList, serializableList]
  case _ =>
    intro v vs s ss hss hsv ih ih2
    rw [dumpsList, serializableList, ← ih, ← ih2, hss, hsv]; simp
  case _ =>
    intro v vs hfail ih ih2
    rw [dumpsList, serializableList, ← ih, ← ih2]
    cases hv : dumpsVal v <;> cases hk : dumpsList vs <;> simp

theorem dumpsVal_isSome (v : JsonVal) : (dumpsVal v).isSome = serializable v :=
  dumps_isSome_all.1 v

theorem computeHash?_isSome (i : Nat) (t p : String) (r : JsonVal) (ph : String) :
    (computeHash? i t p r ph).isSome = serializable r := by
  rw [computeHash?, Option.isSome_map']
  rw [dumpsVal_isSome]
  rw [show serializable (hashPayload i t p r ph) = serializablePairs
    [("index", .int i), ("timestamp", .str t), ("patient_id", .str p),
     ("record", r), ("previous_hash", .str ph)] from by rw [hashPayload, serializable]]
  simp [serializablePairs, serializable]

theorem computeHash?_eq_none (i : Nat) (t p : String) (r : JsonVal) (ph : String)
    (hr : serializable r = false) : computeHash? i t p r ph = none := by
  have h2 := computeHash?_isSome i t p r ph
  rw [hr] at h2
  cases hc : computeHash? i t p r ph with
  | none => rfl
  | some x => rw [hc] at h2; simp at h2

theorem computeHash?_exists (i : Nat) (t p : String) (r : JsonVal) (ph : String)
    (hr : serializable r = true) : ∃ h, computeHash? i t p r ph = some h := by
  have := computeHash?_isSome i t p r ph
  rw [hr, Option.isSome_iff_exists] at this
  exact this

theorem computeHash?_shape {i : Nat} {t p : String} {r : JsonVal} {ph h : String}
    (hh : computeHash? i t p r ph = some h) :
    ∃ s, dumpsVal (hashPayload i t p r ph) = some s ∧ h = sha256Hex (utf8Encode s) := by
  rw [computeHash?, Option.map_eq_some'] at hh
  obtain ⟨s, hs, rfl⟩ := hh
  exact ⟨s, hs, rfl⟩

theorem hash_length {i : Nat} {t p : String} {r : JsonVal} {ph h : String}
    (hh : computeHash? i t p r ph = some h) : h.length = 64 := by
  obtain ⟨s, _, rfl⟩ := computeHash?_shape hh
  exact sha256Hex_length _

/-! # Block construction lemmas -/

theorem create?_some_iff {i : Nat} {p : String} {r : JsonVal} {ph ts : String} {b : Block} :
    Block.create? i p r ph ts = some b ↔
    ∃ h, computeHash? i ts p r ph = some h ∧ b = ⟨i, ts, p, r, ph, h⟩ := by
  rw [Block.create?, Option.map_eq_some']
  constructor
  · rintro ⟨h, hh, rfl⟩; exact ⟨h, hh, rfl⟩
  · rintro ⟨h, hh, rfl⟩; exact ⟨h, hh, rfl⟩

theorem create?_exists {i : Nat} {p : String} {r : JsonVal} {ph ts : String}
    (hr : serializable r = true) :
    ∃ b, Block.create? i p r ph ts = some b ∧ b.index = i ∧ b.timestamp = ts ∧
      b.patient_id = p ∧ b.record = r ∧ b.previous_hash = ph ∧ BlockOK b := by
  obtain ⟨h, hh⟩ := computeHash?_exists i ts p r ph hr
  refine ⟨⟨i, ts, p, r, ph, h⟩, ?_, rfl, rfl, rfl, rfl, rfl, ?_⟩
  · exact create?_some_iff.mpr ⟨h, hh, rfl⟩
  · exact hh

theorem create?_none {i : Nat} {p : String} {r : JsonVal} {ph ts : String}
    (hr : serializable r = false) : Block.create? i p r ph ts = none := by
  rw [Block.create?, computeHash?_eq_none _ _ _ _ _ hr, Option.map_none']

theorem serializable_genesisRecord : serializable genesisRecord = true := by
  rw [genesisRecord, serializable]
  simp [serializablePairs, serializable]

theorem init_eq (ts : String) :
    ∃ g, Blockchain.init ts = ⟨[g], []⟩ ∧ g.index = 0 ∧ g.timestamp = ts ∧
      g.patient_id = "0" ∧ g.record = genesisRecord ∧ g.previous_hash = "0" ∧ BlockOK g := by
  obtain ⟨g, hg, h1, h2, h3, h4, h5, h6⟩ :=
    @create?_exists 0 ("0") genesisRecord ("0") ts serializable_genesisRecord
  refine ⟨g, ?_, h1, h2, h3, h4, h5, h6⟩
  unfold Blockchain.init
  rw [hg]

/-! # Append lemmas -/

theorem addRecord_ok_inv {bc : Blockchain} {pid : String} {r : JsonVal} {ts : String}
    {bc2 : Blockchain} {b : Block} (h : bc.addRecord pid r ts = .ok (bc2, b)) :
    ∃ last, bc.chain.getLast? = some last ∧
      bc2.chain = bc.chain ++ [b] ∧
      bc2.patientIndex = setdefaultAppend bc.patientIndex pid b.index ∧
      b.index = bc.chain.length ∧ b.timestamp = ts ∧ b.patient_id = pid ∧
      b.record = r ∧ b.previous_hash = last.hash ∧ BlockOK b := by
  cases hl : bc.chain.getLast? with
  | none => simp only [Blockchain.addRecord, hl] at h; simp at h
  | some last =>
    cases hc : Block.create? bc.chain.length pid r last.hash ts with
    | none => simp only [Blockchain.addRecord, hl, hc] at h; simp at h
    | some b2 =>
      simp only [Blockchain.addRecord, hl, hc, Except.ok.injEq, Prod.mk.injEq] at h
      obtain ⟨hbc2, hb⟩ := h
      obtain ⟨hd, hch, hb2⟩ := create?_some_iff.mp hc
      subst hb hb2 hbc2
      exact ⟨last, rfl, rfl, rfl, rfl, rfl, rfl, rfl, rfl, hch⟩

theorem addRecord_ok_exists {bc : Blockchain} {pid : String} {r : JsonVal} {ts : String}
    (hne : bc.chain ≠ []) (hr : serializable r = true) :
    ∃ bc2 b, bc.addRecord pid r ts = .ok (bc2, b) := by
  cases hl : bc.chain.getLast? with
  | none => exact absurd (List.getLast?_eq_none_iff.mp hl) hne
  | some last =>
    obtain ⟨b, hb, -⟩ := @create?_exists bc.chain.length pid r last.hash ts hr
    refine ⟨⟨bc.chain ++ [b], setdefaultAppend bc.patientIndex pid b.index⟩, b, ?_⟩
    simp only [Blockchain.addRecord, hl, hb]

theorem addRecord_error_of_nonser {bc : Blockchain} {pid : String} {r : JsonVal} {ts : String}
    (hne : bc.chain ≠ []) (hr : serializable r = false) :
    bc.addRecord pid r ts = .error ("TypeError: record is not JSON serializable") := by
  cases hl : bc.chain.getLast? with
  | none => exact absurd (List.getLast?_eq_none_iff.mp hl) hne
  | some last => simp only [Blockchain.addRecord, hl, create?_none hr]

theorem addOrKeep_chain_cases (bc : Blockchain) (op : AddOp) :
    (∃ e, bc.addRecord op.pid op.record op.ts = .error e ∧ bc.addOrKeep op = bc) ∨
    ∃ bc2 b, bc.addRecord op.pid op.record op.ts = .ok (bc2, b) ∧ bc.addOrKeep op = bc2 := by
  unfold Blockchain.addOrKeep
  split
  · rename_i bc2 b h
    exact Or.inr ⟨bc2, b, h, rfl⟩
  · rename_i e h
    exact Or.inl ⟨e, h, rfl⟩

theorem addOrKeep_ne_nil {bc : Blockchain} (hne : bc.chain ≠ []) (op : AddOp) :
    (bc.addOrKeep op).chain ≠ [] := by
  rcases addOrKeep_chain_cases bc op with ⟨e, -, h⟩ | ⟨bc2, b, hok, h⟩
  · rw [h]; exact hne
  · obtain ⟨last, -, hc, -⟩ := addRecord_ok_inv hok
    rw [h, hc]
    simp

theorem buildChain_ne_nil (gts : String) (ops : List AddOp) :
    (buildChain gts ops).chain ≠ [] := by
  obtain ⟨g, hg, -⟩ := init_eq gts
  rw [buildChain]
  have h2 : ∀ bc : Blockchain, bc.chain ≠ [] → (ops.foldl Blockchain.addOrKeep bc).chain ≠ [] := by
    induction ops with
    | nil => intro bc h; exact h
    | cons op rest ih => intro bc h; exact ih _ (addOrKeep_ne_nil h op)
  exact h2 _ (by rw [hg]; simp)

/-! # Chain invariant lemmas -/

theorem chainLinked_singleton {b : Block} (h0 : b.index = 0) : ChainLinked [b] := by
  constructor
  · intro i hi
    simp at hi
    subst hi
    simpa using h0
  · intro i h1 hi
    simp at hi
    omega
  · intro i hi
    simp at hi

theorem chainLinked_append {ch : List Block} {b : Block} (hc : ChainLinked ch)
    (hb : BlockOK b) (hidx : b.index = ch.length)
    (hlink : ∀ last, ch.getLast? = some last → b.previous_hash = last.hash) :
    ChainLinked (ch ++ [b]) := by
  have hlen : (ch ++ [b]).length = ch.length + 1 := by simp
  constructor
  · intro i hi
    rw [hlen] at hi
    rcases Nat.lt_or_ge i ch.length with h | h
    · rw [List.getD_append _ _ _ _ h]
      exact hc.idx i h
    · have hieq : i = ch.length := by omega
      subst hieq
      rw [List.getD_append_right _ _ _ _ (le_refl _)]
      simpa using hidx
  · intro i h1 hi
    rw [hlen] at hi
    rcases Nat.lt_or_ge i ch.length with h | h
    · rw [List.getD_append _ _ _ _ h]
      exact hc.ok i h1 h
    · have hieq : i = ch.length := by omega
      subst hieq
      rw [List.getD_append_right _ _ _ _ (le_refl _)]
      simpa using hb
  · intro i hi
    rw [hlen] at hi
    rcases Nat.lt_or_ge (i + 1) ch.length with h | h
    · rw [List.getD_append _ _ _ _ h, List.getD_append _ _ _ _ (by omega)]
      exact hc.link i h
    · have hieq : i + 1 = ch.length := by omega
      have hi2 : i < ch.length := by omega
      have hne : ch ≠ [] := by
        intro hnil
        rw [hnil] at hi2
        simp at hi2
      rw [hieq, List.getD_append_right _ _ _ _ (le_refl _), List.getD_append _ _ _ _ hi2]
      rw [Nat.sub_self]
      show b.previous_hash = _
      apply hlink
      rw [List.getLast?_eq_getElem?, show ch.length - 1 = i from by omega,
        List.getElem?_eq_getElem hi2]
      rw [List.getD_eq_getElem?_getD, List.getElem?_eq_getElem hi2]
      rfl

theorem chainLinked_addOrKeep {bc : Blockchain} (h : ChainLinked bc.chain) (op : AddOp) :
    ChainLinked (bc.addOrKeep op).chain := by
  rcases addOrKeep_chain_cases bc op with ⟨e, -, heq⟩ | ⟨bc2, b, hok, heq⟩
  · rw [heq]; exact h
  · obtain ⟨last, hlast, hchain, -, hidx, -, -, -, hph, hbok⟩ := addRecord_ok_inv hok
    rw [heq, hchain]
    refine chainLinked_append h hbok hidx ?_
    intro l hl
    rw [hlast] at hl
    injection hl with hl
    rw [← hl]
    exact hph

theorem chainLinked_build (gts : String) (ops : List AddOp) :
    ChainLinked (buildChain gts ops).chain := by
  obtain ⟨g, hg, hgi, -⟩ := init_eq gts
  rw [buildChain]
  have h2 : ∀ bc : Blockchain, ChainLinked bc.chain →
      ChainLinked ((ops.foldl Blockchain.addOrKeep bc).chain) := by
    induction ops with
    | nil => intro bc h; exact h
    | cons op rest ih => intro bc h; exact ih _ (chainLinked_addOrKeep h op)
  refine h2 _ ?_
  rw [hg]
  exact chainLinked_singleton hgi

/-! # Validation success -/

theorem validateFrom_ok (chain : List Block)
    (hok : ∀ i, 1 ≤ i → i < chain.length → BlockOK (chain.getD i dummyBlock))
    (hlink : ∀ i, 1 ≤ i → i < chain.length →
      (chain.getD i dummyBlock).previous_hash = (chain.getD (i - 1) dummyBlock).hash) :
    ∀ i, 1 ≤ i → validateFrom chain i = .ok (true, none) := by
  have main : ∀ n i, 1 ≤ i → chain.length - i ≤ n →
      validateFrom chain i = .ok (true, none) := by
    intro n
    induction n with
    | zero =>
      intro i h1 hn
      rw [validateFrom, dif_neg (by omega)]
    | succ n ih =>
      intro i h1 hn
      by_cases hi : i < chain.length
      · rw [validateFrom, dif_pos hi]
        have hl := hlink i h1 hi
        have hb := hok i h1 hi
        simp only []
        rw [if_neg (not_not_intro hl)]
        rw [BlockOK] at hb
        simp only [hb]
        rw [if_neg (not_not_intro rfl)]
        exact ih (i + 1) (by omega) (by omega)
      · rw [validateFrom, dif_neg hi]
  intro i h1
  exact main (chain.length - i) i h1 (le_refl _)

theorem chainLinked_link2 {ch : List Block} (h : ChainLinked ch) :
    ∀ i, 1 ≤ i → i < ch.length →
      (ch.getD i dummyBlock).previous_hash = (ch.getD (i - 1) dummyBlock).hash := by
  intro i h1 hi
  have h2 := h.link (i - 1) (show i - 1 + 1 < ch.length from by omega)
  rw [show i - 1 + 1 = i from by omega] at h2
  exact h2

theorem buildChain_validate (gts : String) (ops : List AddOp) :
    (buildChain gts ops).validate = .ok (true, none) := by
  have h := chainLinked_build gts ops
  rw [Blockchain.validate]
  exact validateFrom_ok _ (fun i h1 hi => h.ok i h1 hi) (chainLinked_link2 h) 1 (le_refl 1)

/-! # List modification lemmas (out-of-band tampering) -/

theorem listModify_length {α : Type} (l : List α) (i : Nat) (f : α → α) :
    (listModify l i f).length = l.length := by
  induction l generalizing i with
  | nil => rfl
  | cons x xs ih =>
    cases i with
    | zero => rfl
    | succ n => simpa [listModify] using ih n

theorem listModify_getD_ne {α : Type} (l : List α) (i j : Nat) (f : α → α) (d : α)
    (hne : i ≠ j) : (listModify l i f).getD j d = l.getD j d := by
  induction l generalizing i j with
  | nil => rfl
  | cons x xs ih =>
    cases i with
    | zero =>
      cases j with
      | zero => exact absurd rfl hne
      | succ m => rfl
    | succ n =>
      cases j with
      | zero => rfl
      | succ m =>
        show (listModify xs n f).getD m d = xs.getD m d
        exact ih n m (by omega)

theorem listModify_getD_eq {α : Type} (l : List α) (i : Nat) (f : α → α) (d : α)
    (hi : i < l.length) : (listModify l i f).getD i d = f (l.getD i d) := by
  induction l generalizing i with
  | nil => simp at hi
  | cons x xs ih =>
    cases i with
    | zero => rfl
    | succ n =>
      show (listModify xs n f).getD n d = f (xs.getD n d)
      exact ih n (by simpa using hi)

theorem addOrKeep_length_of_serializable {bc : Blockchain} (hne : bc.chain ≠ [])
    {op : AddOp} (hser : serializable op.record = true) :
    (bc.addOrKeep op).chain.length = bc.chain.length + 1 := by
  obtain ⟨bc2, b, hok⟩ := addRecord_ok_exists hne hser
  rcases addOrKeep_chain_cases bc op with ⟨e, herr, -⟩ | ⟨bc3, b2, hok2, heq⟩
  · rw [hok] at herr
    exact absurd herr (by simp)
  · obtain ⟨-, -, hch, -⟩ := addRecord_ok_inv hok2
    rw [heq, hch]
    simp

theorem buildChain_length (gts : String) (ops : List AddOp)
    (hser : ∀ op ∈ ops, serializable op.record = true) :
    (buildChain gts ops).chain.length = ops.length + 1 := by
  have main : ∀ (l : List AddOp) (bc : Blockchain), bc.chain ≠ [] →
      (∀ op ∈ l, serializable op.record = true) →
      (l.foldl Blockchain.addOrKeep bc).chain.length = bc.chain.length + l.length := by
    intro l
    induction l with
    | nil => intro bc h hs; simp
    | cons op rest ih =>
      intro bc h hs
      have h1 := addOrKeep_length_of_serializable h (hs op (by simp))
      have h2 := ih (bc.addOrKeep op) (addOrKeep_ne_nil h op)
        (fun o ho => hs o (by simp [ho]))
      simp only [List.foldl_cons]
      rw [h2, h1]
      simp
      omega
  obtain ⟨g, hg, -⟩ := init_eq gts
  rw [buildChain, main ops _ (by rw [hg]; simp) hser, hg]
  simp
  omega

theorem built_hash_length (gts : String) (ops : List AddOp) (i : Nat) (h1 : 1 ≤ i)
    (hi : i < (buildChain gts ops).chain.length) :
    (((buildChain gts ops).chain.getD i dummyBlock).hash).length = 64 := by
  have hb := (chainLinked_build gts ops).ok i h1 hi
  rw [BlockOK] at hb
  exact hash_length hb

/-! # Claim C2 -/

/-- C2: for every chain obtained by constructing a `Blockchain` and
performing any finite sequence of successful `add_record` calls (failed
calls leave the state untouched), every position `i ≥ 1` satisfies
`blocks[i].previous_hash = blocks[i-1].hash` and
`blocks[i].hash = compute_hash` of that block's stored fields, and
consequently `validate()` returns ok=true with no failure reason,
regardless of chain length. -/
theorem c2_built_chain_invariants_and_validate (gts : String) (ops : List AddOp) :
    (∀ i, 1 ≤ i → i < (buildChain gts ops).chain.length →
      ((buildChain gts ops).chain.getD i dummyBlock).previous_hash =
        ((buildChain gts ops).chain.getD (i - 1) dummyBlock).hash ∧
      BlockOK ((buildChain gts ops).chain.getD i dummyBlock)) ∧
    (buildChain gts ops).validate = .ok (true, none) := by
  have h := chainLinked_build gts ops
  exact ⟨fun i h1 hi => ⟨chainLinked_link2 h i h1 hi, h.ok i h1 hi⟩,
    buildChain_validate gts ops⟩

/-- Witness for C2 at a concrete chain: the empty sequence of calls. -/
theorem c2_built_chain_invariants_and_validate_witness :
    (buildChain ("2024-01-01T00:00:00") []).validate = .ok (true, none) :=
  (c2_built_chain_invariants_and_validate ("2024-01-01T00:00:00") []).2

/-! # Claim C10 -/

/-- C10: out-of-band mutation of the genesis block's own non-hash fields
(`record` and `timestamp`) on a freshly built chain of any length is
never detected: `validate()` still returns ok=true with no reason,
because the linkage check at position 1 compares against the genesis
block's stored `hash` field and the genesis hash is never recomputed
from its stored fields. -/
theorem c10_genesis_mutation_undetected (gts : String) (ops : List AddOp)
    (r : JsonVal) (ts2 : String) :
    (tamperGenesis (buildChain gts ops) r ts2).validate = .ok (true, none) := by
  have hcl := chainLinked_build gts ops
  rw [Blockchain.validate]
  have hlen : (tamperGenesis (buildChain gts ops) r ts2).chain.length =
      (buildChain gts ops).chain.length := by
    show (listModify _ 0 _).length = _
    exact listModify_length _ _ _
  have hgd : ∀ i, 1 ≤ i → (tamperGenesis (buildChain gts ops) r ts2).chain.getD i dummyBlock =
      (buildChain gts ops).chain.getD i dummyBlock := by
    intro i h1
    exact listModify_getD_ne _ _ _ _ _ (by omega)
  refine validateFrom_ok _ ?_ ?_ 1 (le_refl 1)
  · intro i h1 hi
    rw [hgd i h1]
    exact hcl.ok i h1 (by rw [← hlen]; exact hi)
  · intro i h1 hi
    rw [hgd i h1]
    rcases Nat.lt_or_ge 1 i with h2 | h2
    · rw [hgd (i - 1) (by omega)]
      exact chainLinked_link2 hcl i h1 (by rw [← hlen]; exact hi)
    · have hieq : i = 1 := by omega
      subst hieq
      have h0 : (tamperGenesis (buildChain gts ops) r ts2).chain.getD 0 dummyBlock =
          { (buildChain gts ops).chain.getD 0 dummyBlock with record := r, timestamp := ts2 } := by
        apply listModify_getD_eq
        rw [← hlen] at *
        omega
      rw [show (1 : Nat) - 1 = 0 from rfl, h0]
      exact chainLinked_link2 hcl 1 (le_refl 1) (by rw [← hlen]; exact hi)

/-! # Claim C5 -/

/-- C5: on a freshly built chain of length at least 3, setting
`blocks[2].previous_hash` out-of-band to any value different from
`blocks[1].hash` makes `validate()` return ok=false with the reason
naming index 2 as a broken-link failure (not a hash mismatch), even
though `blocks[2].hash` was computed from untouched fields. -/
theorem c5_broken_link_detected (gts : String) (ops : List AddOp) (v : String)
    (h3 : 3 ≤ (buildChain gts ops).chain.length)
    (hv : v ≠ ((buildChain gts ops).chain.getD 1 dummyBlock).hash) :
    (tamperPrevHash (buildChain gts ops) 2 v).validate =
      .ok (false, some ("Broken link at index 2: previous_hash mismatch")) := by
  have hcl := chainLinked_build gts ops
  rw [Blockchain.validate]
  have hlen : (tamperPrevHash (buildChain gts ops) 2 v).chain.length =
      (buildChain gts ops).chain.length := by
    show (listModify _ 2 _).length = _
    exact listModify_length _ _ _
  have hg0 : (tamperPrevHash (buildChain gts ops) 2 v).chain.getD 0 dummyBlock =
      (buildChain gts ops).chain.getD 0 dummyBlock :=
    listModify_getD_ne _ _ _ _ _ (by omega)
  have hg1 : (tamperPrevHash (buildChain gts ops) 2 v).chain.getD 1 dummyBlock =
      (buildChain gts ops).chain.getD 1 dummyBlock :=
    listModify_getD_ne _ _ _ _ _ (by omega)
  have hg2 : (tamperPrevHash (buildChain gts ops) 2 v).chain.getD 2 dummyBlock =
      { (buildChain gts ops).chain.getD 2 dummyBlock with previous_hash := v } :=
    listModify_getD_eq _ _ _ _ (by rw [show (tamperPrevHash (buildChain gts ops) 2 v).chain
      = listModify (buildChain gts ops).chain 2 _ from rfl] at hlen; omega)
  rw [validateFrom, dif_pos (by rw [hlen]; omega)]
  simp only []
  rw [show (1 : Nat) - 1 = 0 from rfl, hg0, hg1]
  rw [if_neg (not_not_intro (chainLinked_link2 hcl 1 (le_refl 1) (by omega)))]
  have hb1 := hcl.ok 1 (le_refl 1) (by omega)
  rw [BlockOK] at hb1
  simp only [hb1]
  rw [if_neg (not_not_intro rfl)]
  rw [validateFrom, dif_pos (by rw [hlen]; omega)]
  simp only []
  rw [show (2 : Nat) - 1 = 1 from rfl, hg1, hg2]
  rw [if_pos hv]
  rfl

/-- Witness for C5: two successful appends after genesis give a chain of
length 3; the empty string differs from the 64-character stored hash of
block 1, and tampering block 2's `previous_hash` to it is then reported
as the broken link at index 2. -/
theorem c5_broken_link_detected_witness :
    (tamperPrevHash
        (buildChain ("2024-01-01T00:00:00")
          [⟨"p1", .null, "2024-01-01T00:00:01"⟩, ⟨"p2", .null, "2024-01-01T00:00:02"⟩])
        2 "").validate =
      .ok (false, some ("Broken link at index 2: previous_hash mismatch")) := by
  have hlen := buildChain_length ("2024-01-01T00:00:00")
    [⟨"p1", .null, "2024-01-01T00:00:01"⟩, ⟨"p2", .null, "2024-01-01T00:00:02"⟩]
    (by
      intro op hop
      simp at hop
      rcases hop with rfl | rfl <;> simp [serializable])
  apply c5_broken_link_detected
  · rw [hlen]
    simp
  · have h64 := built_hash_length ("2024-01-01T00:00:00")
      [⟨"p1", .null, "2024-01-01T00:00:01"⟩, ⟨"p2", .null, "2024-01-01T00:00:02"⟩]
      1 (le_refl 1) (by rw [hlen]; simp)
    intro heq
    rw [← heq] at h64
    simp at h64

/-! # Claim C9 -/

/-- C9: for every chain state and patient id, `get_latest_record`
returns exactly the last element of `get_all_records` when that list is
non-empty and the explicit absent result `none` when the patient has no
entries; a lookup for an unknown (or empty-indexed) patient id yields
the empty list from `get_all_records` — a value, never an error. -/
theorem c9_lookup_last_or_absent (bc : Blockchain) (pid : String) :
    bc.getLatestRecord pid = (bc.getAllRecords pid).getLast? ∧
    ((dictGet? bc.patientIndex pid = none ∨ dictGet? bc.patientIndex pid = some []) →
      bc.getAllRecords pid = [] ∧ bc.getLatestRecord pid = none) ∧
    (bc.getAllRecords pid ≠ [] →
      ∃ b, (bc.getAllRecords pid).getLast? = some b ∧ bc.getLatestRecord pid = some b) := by
  refine ⟨rfl, ?_, ?_⟩
  · intro h
    have hemp : bc.getAllRecords pid = [] := by
      rcases h with h | h <;> simp only [Blockchain.getAllRecords, h] <;> simp
    refine ⟨hemp, ?_⟩
    rw [Blockchain.getLatestRecord, hemp]
    rfl
  · intro h
    cases hl : (bc.getAllRecords pid).getLast? with
    | none => exact absurd (List.getLast?_eq_none_iff.mp hl) h
    | some b => exact ⟨b, rfl, by rw [Blockchain.getLatestRecord, hl]⟩

/-- Witness for C9 at a concrete state: a state with an empty index maps
an unknown patient to the empty list and the absent result. -/
theorem c9_lookup_last_or_absent_witness :
    (Blockchain.mk [] []).getAllRecords ("p") = [] ∧
    (Blockchain.mk [] []).getLatestRecord ("p") = none :=
  (c9_lookup_last_or_absent (Blockchain.mk [] []) ("p")).2.1 (Or.inl rfl)

/-! # Claim C8 -/

/-- C8: on any reachable chain state, appending a record that cannot be
canonically serialized fails fast at append time with the
`TypeError`-kind error (the spec's `InvalidRecord`), raised before any
mutation, so the chain state (blocks and patient index alike) is left
exactly as it was. -/
theorem c8_invalid_record_rejected (gts : String) (ops : List AddOp) (pid : String)
    (r : JsonVal) (ts : String) (hr : serializable r = false) :
    (buildChain gts ops).addRecord pid r ts =
      .error ("TypeError: record is not JSON serializable") ∧
    (buildChain gts ops).addOrKeep ⟨pid, r, ts⟩ = buildChain gts ops := by
  have hne := buildChain_ne_nil gts ops
  have herr := @addRecord_error_of_nonser (buildChain gts ops) pid r ts hne hr
  refine ⟨herr, ?_⟩
  rcases addOrKeep_chain_cases (buildChain gts ops) ⟨pid, r, ts⟩ with ⟨e, -, h⟩ | ⟨bc2, b, hok, -⟩
  · exact h
  · rw [herr] at hok
    exact absurd hok (by simp)

/-- Witness for C8: a non-serializable payload on a fresh chain. -/
theorem c8_invalid_record_rejected_witness :
    (buildChain ("2024-01-01T00:00:00") []).addRecord ("p") .nonser ("2024-01-01T00:00:01") =
      .error ("TypeError: record is not JSON serializable") ∧
    (buildChain ("2024-01-01T00:00:00") []).addOrKeep
        ⟨"p", .nonser, "2024-01-01T00:00:01"⟩ =
      buildChain ("2024-01-01T00:00:00") [] :=
  c8_invalid_record_rejected ("2024-01-01T00:00:00") [] ("p") .nonser
    ("2024-01-01T00:00:01") (by simp [serializable])

/-! # Patient index lemmas -/

theorem dictGet?_setdefaultAppend (pi : List (String × List Nat)) (pid p : String) (i : Nat) :
    dictGet? (setdefaultAppend pi pid i) p =
      if p = pid then some ((dictGet? pi pid).getD [] ++ [i]) else dictGet? pi p := by
  induction pi with
  | nil =>
    by_cases h : p = pid
    · subst h
      simp [setdefaultAppend, dictGet?]
    · have h2 : ¬(pid = p) := fun hh => h hh.symm
      simp [setdefaultAppend, dictGet?, h, h2]
  | cons kv rest ih =>
    obtain ⟨k, l⟩ := kv
    by_cases hk : k = pid
    · subst hk
      by_cases hp : p = k
      · subst hp
        simp [setdefaultAppend, dictGet?]
      · have hp2 : ¬(k = p) := fun hh => hp hh.symm
        simp [setdefaultAppend, dictGet?, hp, hp2]
    · by_cases hp : p = k
      · subst hp
        have hk2 : ¬(p = pid) := hk
        simp [setdefaultAppend, dictGet?, hk, hk2]
      · have hp2 : ¬(k = p) := fun hh => hp hh.symm
        simp [setdefaultAppend, dictGet?, hk, hp2, ih]

theorem positionsScanFrom1_append (ch : List Block) (b : Block) (p : String)
    (hne : ch ≠ []) :
    positionsScanFrom1 (ch ++ [b]) p =
      positionsScanFrom1 ch p ++ (if b.patient_id == p then [ch.length] else []) := by
  rw [positionsScanFrom1, positionsScanFrom1]
  have hlen : (ch ++ [b]).length = ch.length + 1 := by simp
  rw [hlen, List.range_succ]
  rw [List.drop_append_of_le_length (by
    rw [List.length_range]
    rcases Nat.eq_zero_or_pos ch.length with h | h
    · exact absurd (List.length_eq_zero.mp h) hne
    · omega)]
  rw [List.filter_append]
  congr 1
  · apply List.filter_congr
    intro i hi
    have hilt : i < ch.length := List.mem_range.mp (List.mem_of_mem_drop hi)
    rw [List.getD_append _ _ _ _ hilt]
  · simp only [List.filter]
    rw [List.getD_append_right _ _ _ _ (le_refl _), Nat.sub_self]
    cases hb : ((b.patient_id == p) : Bool) with
    | true =>
      rw [show ([b].getD 0 dummyBlock) = b from rfl] at *
      simp [hb]
    | false =>
      rw [show ([b].getD 0 dummyBlock) = b from rfl] at *
      simp [hb]

/-! # Claim C7 (amended) -/

/-- C7 (amended): after construction and every sequence of `add_record`
calls, the patient index is exactly the mapping obtained by scanning the
appended blocks (positions `1` and up — the genesis block at position 0
is never indexed) and recording each block's position under its patient
id: for every patient id, the lookup is absent when that patient owns no
appended block and is otherwise exactly the ordered position list. -/
theorem c7_patient_index_is_scan (gts : String) (ops : List AddOp) (p : String) :
    dictGet? (buildChain gts ops).patientIndex p =
      optOfList (positionsScanFrom1 (buildChain gts ops).chain p) := by
  suffices main : ∀ (l : List AddOp) (bc : Blockchain), bc.chain ≠ [] →
      (∀ q, dictGet? bc.patientIndex q = optOfList (positionsScanFrom1 bc.chain q)) →
      (∀ q, dictGet? (l.foldl Blockchain.addOrKeep bc).patientIndex q =
        optOfList (positionsScanFrom1 (l.foldl Blockchain.addOrKeep bc).chain q)) by
    obtain ⟨g, hg, -⟩ := init_eq gts
    rw [buildChain]
    refine main ops _ (by rw [hg]; simp) ?_ p
    intro q
    rw [hg]
    simp [dictGet?, positionsScanFrom1, optOfList]
  intro l
  induction l with
  | nil => intro bc h hinv; exact hinv
  | cons op rest ih =>
    intro bc hne hinv
    refine ih _ (addOrKeep_ne_nil hne op) ?_
    intro q
    rcases addOrKeep_chain_cases bc op with ⟨e, -, heq⟩ | ⟨bc2, b, hok, heq⟩
    · rw [heq]; exact hinv q
    · obtain ⟨last, -, hch, hpi, hidx, -, hbpid, -, -, -⟩ := addRecord_ok_inv hok
      rw [heq, hch, hpi, hidx]
      rw [positionsScanFrom1_append _ _ _ hne]
      rw [dictGet?_setdefaultAppend]
      rw [hbpid]
      by_cases hq : q = op.pid
      · rw [hq]
        rw [if_pos rfl]
        rw [hinv op.pid]
        rw [show ((op.pid == op.pid) : Bool) = true from by simp]
        by_cases hpos : positionsScanFrom1 bc.chain op.pid = []
        · rw [hpos]
          simp [optOfList]
        · simp [optOfList, hpos]
      · rw [if_neg hq]
        rw [hinv q]
        rw [show ((op.pid == q) : Bool) = false from by
          simp
          exact fun hh => hq hh.symm]
        simp

/-- Counterexample refuting C7 as stated: the literal scan of `blocks`
includes the genesis block, which carries patient id "0" at position 0,
yet a freshly constructed chain's patient index is empty — so the index
disagrees with the full scan at patient id "0". -/
theorem c7_counterexample :
    ¬ (dictGet? (Blockchain.init ("2024-01-01T00:00:00")).patientIndex ("0") =
        optOfList (positionsScan (Blockchain.init ("2024-01-01T00:00:00")).chain ("0"))) := by
  obtain ⟨g, hg, -, -, hpid, -, -, -⟩ := init_eq ("2024-01-01T00:00:00")
  rw [hg]
  intro h
  rw [show dictGet? ([] : List (String × List Nat)) ("0") = none from rfl] at h
  have hpos : positionsScan [g] ("0") = [0] := by
    rw [positionsScan]
    rw [show List.range [g].length = [0] from rfl]
    simp [List.filter, hpid]
  rw [hpos] at h
  simp [optOfList] at h

/-! # Validation refinement (claim C3) -/

theorem range_drop_cons (n i : Nat) (h : i < n) :
    (List.range n).drop i = i :: (List.range n).drop (i + 1) := by
  rw [List.drop_eq_getElem_cons (by simpa using h)]
  congr 1
  simp

theorem validateFrom_spec (chain : List Block)
    (hser : ∀ b ∈ chain.drop 1, serializable b.record = true) :
    ∀ i, 1 ≤ i →
      validateFrom chain i =
        .ok (match ((List.range chain.length).drop i).findSome? (specFailureAt chain) with
             | some msg => (false, some msg)
             | none => (true, none)) := by
  have main : ∀ n i, 1 ≤ i → chain.length - i ≤ n →
      validateFrom chain i =
        .ok (match ((List.range chain.length).drop i).findSome? (specFailureAt chain) with
             | some msg => (false, some msg)
             | none => (true, none)) := by
    intro n
    induction n with
    | zero =>
      intro i h1 hn
      rw [validateFrom, dif_neg (by omega)]
      rw [List.drop_eq_nil_of_le (by rw [List.length_range]; omega)]
      rfl
    | succ n ih =>
      intro i h1 hn
      by_cases hi : i < chain.length
      case neg =>
        rw [validateFrom, dif_neg hi]
        rw [List.drop_eq_nil_of_le (by rw [List.length_range]; omega)]
        rfl
      case pos =>
        have hcur : serializable (chain.getD i dummyBlock).record = true := by
          have hg2 : (chain.drop 1)[i - 1]? = some (chain.getD i dummyBlock) := by
            rw [List.getElem?_drop, show 1 + (i - 1) = i from by omega,
              List.getElem?_eq_getElem hi, List.getD_eq_getElem?_getD,
              List.getElem?_eq_getElem hi]
            rfl
          exact hser _ (List.getElem?_mem hg2)
        obtain ⟨rec, hrec⟩ := computeHash?_exists (chain.getD i dummyBlock).index
          (chain.getD i dummyBlock).timestamp (chain.getD i dummyBlock).patient_id
          (chain.getD i dummyBlock).record (chain.getD i dummyBlock).previous_hash hcur
        rw [validateFrom, dif_pos hi]
        simp only []
        rw [range_drop_cons _ _ hi, List.findSome?_cons]
        by_cases hpb : (chain.getD i dummyBlock).previous_hash =
            (chain.getD (i - 1) dummyBlock).hash
        case neg =>
          rw [if_pos hpb]
          have hspec : specFailureAt chain i =
              some ("Broken link at index " ++ toString i ++ ": previous_hash mismatch") := by
            rw [specFailureAt, if_pos (bne_iff_ne.mpr hpb)]
          rw [hspec]
        case pos =>
          rw [if_neg (not_not_intro hpb)]
          simp only [hrec]
          by_cases hhh : (chain.getD i dummyBlock).hash = rec
          case neg =>
            rw [if_pos hhh]
            have hspec : specFailureAt chain i =
                some ("Hash mismatch at index " ++ toString i ++ ": data was modified") := by
              rw [specFailureAt, if_neg (by rw [bne_eq_false_iff_eq.mpr hpb]; simp),
                if_pos (by
                  rw [hrec]
                  exact bne_iff_ne.mpr (fun hh => hhh (Option.some.inj hh)))]
            rw [hspec]
          case pos =>
            rw [if_neg (not_not_intro hhh)]
            have hspec : specFailureAt chain i = none := by
              rw [specFailureAt, if_neg (by rw [bne_eq_false_iff_eq.mpr hpb]; simp),
                if_neg (by rw [hrec, hhh]; simp)]
            rw [hspec]
            exact ih (i + 1) (by omega) (by omega)
  intro i h1
  exact main (chain.length - i) i h1 (le_refl _)

/-! # Claim C3 -/

/-- C3: `validate()` examines positions 1 through the end in increasing
order (position 0 is never checked against a predecessor), evaluates at
each position the linkage check strictly before the recomputed-hash
integrity check, stops at the first failure with the reason naming that
position and the failure kind, and returns ok=true with no reason when
every check passes — i.e. it coincides with the specification's
first-failure scan `validateSpec`.  (Hypothesis: the appended blocks'
records are serializable, so recomputing a hash does not raise.) -/
theorem c3_validate_refines_spec (bc : Blockchain)
    (hser : ∀ b ∈ bc.chain.drop 1, serializable b.record = true) :
    bc.validate = .ok (validateSpec bc.chain) := by
  rw [Blockchain.validate, validateSpec]
  exact validateFrom_spec bc.chain hser 1 (le_refl 1)

/-- Witness for C3 at a concrete state: a two-block chain whose second
block does not link to the first; both scans report the broken link at
index 1. -/
theorem c3_validate_refines_spec_witness :
    (Blockchain.mk [⟨0, "t0", "0", .null, "0", "a"⟩, ⟨1, "t1", "p", .null, "x", "b"⟩]
        []).validate =
      .ok (validateSpec
        [⟨0, "t0", "0", .null, "0", "a"⟩, ⟨1, "t1", "p", .null, "x", "b"⟩]) := by
  apply c3_validate_refines_spec
  intro b hb
  simp at hb
  rw [hb]
  simp [serializable]

/-! # Claim C1 -/

/-- C1: for every serializable input tuple, `compute_hash` returns the
SHA-256 digest — rendered as the 64-character lowercase hexadecimal
string — of the UTF-8 encoding of the compact (no insignificant
whitespace), recursively key-sorted JSON serialization of the mapping
with exactly the five field names `index`, `timestamp`, `patient_id`,
`record`, `previous_hash` (that serialization is `dumpsVal` of
`hashPayload`, the embedding of `json.dumps(payload, sort_keys=True,
separators=(",", ":"))`). -/
theorem c1_compute_hash_canonical (i : Nat) (t p : String) (r : JsonVal) (ph : String)
    (hr : serializable r = true) :
    ∃ s, dumpsVal (hashPayload i t p r ph) = some s ∧
      computeHash? i t p r ph = some (sha256Hex (utf8Encode s)) ∧
      (sha256Hex (utf8Encode s)).length = 64 ∧
      ∀ c ∈ (sha256Hex (utf8Encode s)).data, c ∈ ("0123456789abcdef").data := by
  obtain ⟨h, hh⟩ := computeHash?_exists i t p r ph hr
  obtain ⟨s, hs, rfl⟩ := computeHash?_shape hh
  exact ⟨s, hs, hh, sha256Hex_length _, sha256Hex_hexchars _⟩

/-- Witness for C1 at a concrete serializable tuple. -/
theorem c1_compute_hash_canonical_witness :
    ∃ s, dumpsVal (hashPayload 1 ("2024-01-02T03:04:05") ("patient-1")
        (.obj [("diagnosis", .str ("flu")), ("treatment", .str ("rest"))]) ("0")) = some s ∧
      computeHash? 1 ("2024-01-02T03:04:05") ("patient-1")
        (.obj [("diagnosis", .str ("flu")), ("treatment", .str ("rest"))]) ("0") =
        some (sha256Hex (utf8Encode s)) ∧
      (sha256Hex (utf8Encode s)).length = 64 ∧
      ∀ c ∈ (sha256Hex (utf8Encode s)).data, c ∈ ("0123456789abcdef").data :=
  c1_compute_hash_canonical 1 ("2024-01-02T03:04:05") ("patient-1")
    (.obj [("diagnosis", .str ("flu")), ("treatment", .str ("rest"))]) ("0")
    (by simp [serializable, serializablePairs])

/-! # Insertion sort facts (key order independence) -/

theorem charLt_iff (c d : Char) : c < d ↔ c.toNat < d.toNat := Iff.rfl

theorem char_eq_of_toNat_eq {c d : Char} (h : c.toNat = d.toNat) : c = d :=
  Char.eq_of_val_eq (UInt32.eq_of_toBitVec_eq (BitVec.eq_of_toNat_eq h))

theorem charListLe_iff : ∀ l1 l2 : List Char,
    charListLe l1 l2 = true ↔ ¬ List.Lex (· < ·) l2 l1 := by
  intro l1
  induction l1 with
  | nil =>
    intro l2
    rw [charListLe]
    refine iff_of_true rfl ?_
    intro h
    cases h
  | cons c cs ih =>
    intro l2
    cases l2 with
    | nil =>
      rw [charListLe]
      refine iff_of_false (by simp) (not_not_intro List.Lex.nil)
    | cons d ds =>
      rw [charListLe]
      rcases Nat.lt_trichotomy c.toNat d.toNat with hlt | heq | hgt
      · rw [if_pos hlt]
        refine iff_of_true rfl ?_
        intro h
        cases h with
        | cons h2 => omega
        | rel h2 => rw [charLt_iff] at h2; omega
      · rw [if_neg (by omega), if_neg (by omega)]
        have hcd : c = d := char_eq_of_toNat_eq heq
        subst hcd
        rw [ih ds]
        constructor
        · intro h h2
          cases h2 with
          | cons h3 => exact h h3
          | rel h3 => rw [charLt_iff] at h3; omega
        · intro h h2
          exact h (List.Lex.cons h2)
      · rw [if_neg (by omega), if_pos hgt]
        refine iff_of_false (by simp)
          (not_not_intro (List.Lex.rel (by rw [charLt_iff]; omega)))

theorem strLe_iff (a b : String) : strLe a b = true ↔ a ≤ b := by
  rw [String.le_iff_toList_le, ← not_lt, strLe, charListLe_iff]
  exact Iff.rfl

theorem insertPair_perm (p : String × String) (l : List (String × String)) :
    (insertPair p l).Perm (p :: l) := by
  induction l with
  | nil => exact List.Perm.refl _
  | cons q qs ih =>
    rw [insertPair]
    by_cases h : strLe p.1 q.1 = true
    · rw [if_pos h]
    · rw [if_neg h]
      exact (ih.cons q).trans (List.Perm.swap p q qs)

theorem sortPairs_perm (l : List (String × String)) : (sortPairs l).Perm l := by
  induction l with
  | nil => exact List.Perm.refl _
  | cons p ps ih => exact (insertPair_perm p (sortPairs ps)).trans (ih.cons p)

theorem insertPair_sorted (p : String × String) {l : List (String × String)}
    (h : List.Sorted (fun a b => a.1 ≤ b.1) l) :
    List.Sorted (fun a b => a.1 ≤ b.1) (insertPair p l) := by
  induction l with
  | nil => simp [insertPair]
  | cons q qs ih =>
    rw [insertPair]
    by_cases hpq : strLe p.1 q.1 = true
    · rw [if_pos hpq]
      have hpq2 : p.1 ≤ q.1 := (strLe_iff _ _).mp hpq
      rw [List.sorted_cons]
      refine ⟨?_, h⟩
      intro b hb
      rcases List.mem_cons.mp hb with rfl | hb2
      · exact hpq2
      · exact le_trans hpq2 ((List.sorted_cons.mp h).1 b hb2)
    · rw [if_neg hpq]
      have hpq2 : ¬ p.1 ≤ q.1 := fun hh => hpq ((strLe_iff _ _).mpr hh)
      rw [List.sorted_cons] at h ⊢
      refine ⟨?_, ih h.2⟩
      intro b hb
      have hb2 := (insertPair_perm p qs).mem_iff.mp hb
      rcases List.mem_cons.mp hb2 with rfl | hb3
      · exact le_of_not_le hpq2
      · exact h.1 b hb3

theorem sortPairs_sorted (l : List (String × String)) :
    List.Sorted (fun a b => a.1 ≤ b.1) (sortPairs l) := by
  induction l with
  | nil => simp [sortPairs]
  | cons p ps ih => exact insertPair_sorted p ih

theorem sortPairs_eq_of_perm {l1 l2 : List (String × String)} (hp : l1.Perm l2)
    (hnd : (l1.map Prod.fst).Nodup) : sortPairs l1 = sortPairs l2 := by
  haveI : IsAntisymm (String × String) (fun a b => a.1 < b.1) :=
    ⟨fun a b h1 h2 => absurd (lt_trans h1 h2) (lt_irrefl _)⟩
  have hstrict : ∀ (l : List (String × String)), (l.map Prod.fst).Nodup →
      List.Sorted (fun a b => a.1 < b.1) (sortPairs l) := by
    intro l hl
    have hs := sortPairs_sorted l
    have hnd2 : ((sortPairs l).map Prod.fst).Nodup :=
      (((sortPairs_perm l).map Prod.fst).nodup_iff).mpr hl
    have hne : (sortPairs l).Pairwise (fun a b => a.1 ≠ b.1) :=
      (List.pairwise_map).mp hnd2
    exact (hs.and hne).imp (fun hab => lt_of_le_of_ne hab.1 hab.2)
  have hnd2 : (l2.map Prod.fst).Nodup := ((hp.map Prod.fst).nodup_iff).mp hnd
  exact List.eq_of_perm_of_sorted
    (((sortPairs_perm l1).trans hp).trans (sortPairs_perm l2).symm)
    (hstrict l1 hnd) (hstrict l2 hnd2)

/-! # Rendered pair lemmas -/

theorem dumpsPairs_keys : ∀ (kvs : List (String × JsonVal)) (rs : List (String × String)),
    dumpsPairs kvs = some rs → rs.map Prod.fst = kvs.map Prod.fst := by
  intro kvs
  induction kvs with
  | nil =>
    intro rs h
    rw [dumpsPairs] at h
    injection h with h
    rw [← h]
    rfl
  | cons kv rest ih =>
    obtain ⟨k, v⟩ := kv
    intro rs h
    rw [dumpsPairs] at h
    cases hv : dumpsVal v with
    | none => rw [hv] at h; simp at h
    | some s =>
      cases hr : dumpsPairs rest with
      | none => rw [hv, hr] at h; simp at h
      | some rs2 =>
        rw [hv, hr] at h
        injection h with h
        rw [← h]
        simp [ih rs2 hr]

theorem serializablePairs_perm {kvs kvs2 : List (String × JsonVal)} (hp : kvs.Perm kvs2) :
    serializablePairs kvs = serializablePairs kvs2 := by
  induction hp with
  | nil => rfl
  | cons x hperm ih =>
    obtain ⟨k, v⟩ := x
    rw [serializablePairs, serializablePairs, ih]
  | swap x y l =>
    obtain ⟨k, v⟩ := x
    obtain ⟨k2, v2⟩ := y
    rw [serializablePairs, serializablePairs, serializablePairs, serializablePairs]
    cases serializable v <;> cases serializable v2 <;> simp
  | trans h1 h2 ih1 ih2 => exact ih1.trans ih2

theorem dumpsPairs_none_perm {kvs kvs2 : List (String × JsonVal)} (hp : kvs.Perm kvs2)
    (h : dumpsPairs kvs = none) : dumpsPairs kvs2 = none := by
  have h1 := dumps_isSome_all.2.1 kvs
  have h2 := dumps_isSome_all.2.1 kvs2
  rw [h] at h1
  rw [← serializablePairs_perm hp, ← h1] at h2
  cases hc : dumpsPairs kvs2 with
  | none => rfl
  | some rs => rw [hc] at h2; simp at h2

theorem dumpsPairs_some_perm {kvs kvs2 : List (String × JsonVal)} (hp : kvs.Perm kvs2) :
    ∀ rs, dumpsPairs kvs = some rs → ∃ rs2, dumpsPairs kvs2 = some rs2 ∧ rs.Perm rs2 := by
  induction hp with
  | nil =>
    intro rs h
    exact ⟨rs, h, List.Perm.refl _⟩
  | cons x hperm ih =>
    rename_i l1 l2
    obtain ⟨k, v⟩ := x
    intro rs h
    rw [dumpsPairs] at h
    cases hv : dumpsVal v with
    | none => rw [hv] at h; simp at h
    | some s =>
      cases hr : dumpsPairs l1 with
      | none => rw [hv, hr] at h; simp at h
      | some rs1 =>
        rw [hv, hr] at h
        injection h with h
        obtain ⟨rs2, hrs2, hp2⟩ := ih rs1 hr
        refine ⟨(k, s) :: rs2, ?_, ?_⟩
        · rw [dumpsPairs, hv, hrs2]
        · rw [← h]
          exact hp2.cons _
  | swap x y l =>
    obtain ⟨k, v⟩ := x
    obtain ⟨k2, v2⟩ := y
    intro rs h
    rw [dumpsPairs] at h
    cases hv2 : dumpsVal v2 with
    | none => rw [hv2] at h; simp at h
    | some s2 =>
      rw [hv2] at h
      cases hinner : dumpsPairs ((k, v) :: l) with
      | none => rw [hinner] at h; simp at h
      | some rsi =>
        rw [hinner] at h
        injection h with h
        rw [dumpsPairs] at hinner
        cases hv : dumpsVal v with
        | none => rw [hv] at hinner; simp at hinner
        | some s =>
          cases hl : dumpsPairs l with
          | none => rw [hv, hl] at hinner; simp at hinner
          | some rsl =>
            rw [hv, hl] at hinner
            injection hinner with hinner
            refine ⟨(k, s) :: (k2, s2) :: rsl, ?_, ?_⟩
            · have hstep : dumpsPairs ((k2, v2) :: l) = some ((k2, s2) :: rsl) := by
                rw [dumpsPairs, hv2, hl]
              rw [dumpsPairs, hv, hstep]
            · rw [← h, ← hinner]
              exact List.Perm.swap _ _ _
  | trans h1 h2 ih1 ih2 =>
    intro rs h
    obtain ⟨rsa, ha, hpa⟩ := ih1 rs h
    obtain ⟨rsb, hb, hpb⟩ := ih2 rsa ha
    exact ⟨rsb, hb, hpa.trans hpb⟩

theorem jsonEquivPairs_keys : ∀ (kvs mid : List (String × JsonVal)),
    jsonEquivPairs kvs mid → kvs.map Prod.fst = mid.map Prod.fst := by
  intro kvs
  induction kvs with
  | nil =>
    intro mid h
    cases mid with
    | nil => rfl
    | cons y ys =>
      rw [jsonEquivPairs.eq_def] at h
      simp at h
  | cons x xs ih =>
    obtain ⟨k, v⟩ := x
    intro mid h
    cases mid with
    | nil =>
      rw [jsonEquivPairs.eq_def] at h
      simp at h
    | cons y ys =>
      obtain ⟨k2, v2⟩ := y
      rw [jsonEquivPairs] at h
      obtain ⟨hk, -, hrest⟩ := h
      simp [hk, ih ys hrest]

/-! # Serialization respects record equivalence -/

theorem jsonEquiv_dumps : ∀ v w, jsonEquiv v w → dumpsVal v = dumpsVal w := by
  refine jsonEquiv.induct
    (fun v w => jsonEquiv v w → dumpsVal v = dumpsVal w)
    (fun kvs kvs2 => jsonEquivPairs kvs kvs2 → dumpsPairs kvs = dumpsPairs kvs2)
    (fun xs ys => jsonEquivList xs ys → dumpsList xs = dumpsList ys)
    ?_ ?_ ?_ ?_ ?_ ?_ ?_ ?_ ?_
  · intro xs ys ih h
    rw [jsonEquiv] at h
    rw [dumpsVal, dumpsVal, ih h]
  · intro kvs kvs2 ih h
    rw [jsonEquiv] at h
    obtain ⟨hnd, mid, hpw, hperm⟩ := h
    have hpair : dumpsPairs kvs = dumpsPairs mid := ih mid hpw
    have hkeys : kvs.map Prod.fst = mid.map Prod.fst := jsonEquivPairs_keys kvs mid hpw
    rw [dumpsVal, dumpsVal]
    cases hk : dumpsPairs kvs with
    | none =>
      have hmid : dumpsPairs mid = none := by rw [← hpair]; exact hk
      rw [dumpsPairs_none_perm hperm hmid]
    | some rs =>
      have hmid : dumpsPairs mid = some rs := by rw [← hpair]; exact hk
      obtain ⟨rs2, hrs2, hp2⟩ := dumpsPairs_some_perm hperm rs hmid
      rw [hrs2]
      have hrsnd : (rs.map Prod.fst).Nodup := by
        rw [dumpsPairs_keys mid rs hmid, ← hkeys]
        exact hnd
      show some ("\x7b" ++ joinComma ((sortPairs rs).map
          (fun q => encStr q.1 ++ ":" ++ q.2)) ++ "\x7d") =
        some ("\x7b" ++ joinComma ((sortPairs rs2).map
          (fun q => encStr q.1 ++ ":" ++ q.2)) ++ "\x7d")
      rw [sortPairs_eq_of_perm hp2 hrsnd]
  · intro v w hna hno h
    have hvw : v = w := by
      cases v <;> cases w <;>
        first
        | rfl
        | exact (hna _ _ rfl rfl).elim
        | exact (hno _ _ rfl rfl).elim
        | (rw [jsonEquiv.eq_def] at h
           simpa using h)
    rw [hvw]
  · intro h
    rfl
  · intro k v kvs k2 v2 kvs2 ih1 ih2 h
    rw [jsonEquivPairs] at h
    obtain ⟨hk, hv, hrest⟩ := h
    rw [dumpsPairs, dumpsPairs, ih1 hv, ih2 hrest, hk]
  · intro x x1 hn hc h
    cases x with
    | nil =>
      cases x1 with
      | nil => exact (hn rfl rfl).elim
      | cons y ys =>
        rw [jsonEquivPairs.eq_def] at h
        simp at h
    | cons y ys =>
      cases x1 with
      | nil =>
        rw [jsonEquivPairs.eq_def] at h
        simp at h
      | cons z zs =>
        obtain ⟨k, v⟩ := y
        obtain ⟨k2, v2⟩ := z
        exact (hc k v ys k2 v2 zs rfl rfl).elim
  · intro h
    rfl
  · intro x xs y ys ih1 ih2 h
    rw [jsonEquivList] at h
    obtain ⟨hv, hrest⟩ := h
    rw [dumpsList, dumpsList, ih1 hv, ih2 hrest]
  · intro x x1 hn hc h
    cases x with
    | nil =>
      cases x1 with
      | nil => exact (hn rfl rfl).elim
      | cons y ys =>
        rw [jsonEquivList.eq_def] at h
        simp at h
    | cons y ys =>
      cases x1 with
      | nil =>
        rw [jsonEquivList.eq_def] at h
        simp at h
      | cons z zs => exact (hc y ys z zs rfl rfl).elim

/-! # Claim C6 -/

/-- C6: `compute_hash` is independent of the insertion order of keys in
the `record` mapping: any two records containing the same key/value
pairs at every nesting level (mapping keys distinct, order of insertion
arbitrary — the `jsonEquiv` relation) hash identically when the other
four fields agree. -/
theorem c6_key_order_independence (i : Nat) (t p : String) (r1 r2 : JsonVal)
    (ph : String) (h : jsonEquiv r1 r2) :
    computeHash? i t p r1 ph = computeHash? i t p r2 ph := by
  have hpayload : jsonEquiv (hashPayload i t p r1 ph) (hashPayload i t p r2 ph) := by
    rw [hashPayload, hashPayload, jsonEquiv]
    refine ⟨?_, ⟨[("index", .int i), ("timestamp", .str t), ("patient_id", .str p),
      ("record", r2), ("previous_hash", .str ph)], ?_, List.Perm.refl _⟩⟩
    · simp
    · rw [jsonEquivPairs, jsonEquivPairs, jsonEquivPairs, jsonEquivPairs, jsonEquivPairs,
        jsonEquivPairs]
      refine ⟨rfl, ?_, rfl, ?_, rfl, ?_, rfl, h, rfl, ?_, trivial⟩
      · rw [jsonEquiv.eq_def]
      · rw [jsonEquiv.eq_def]
      · rw [jsonEquiv.eq_def]
      · rw [jsonEquiv.eq_def]
  rw [computeHash?, computeHash?, jsonEquiv_dumps _ _ hpayload]

/-- Witness for C6 at the concrete pair of the claim:
`{"a": 1, "b": 2}` and `{"b": 2, "a": 1}`. -/
theorem c6_key_order_independence_witness :
    computeHash? 1 ("2024-01-02T03:04:05") ("patient-1")
        (.obj [("a", .int 1), ("b", .int 2)]) ("0") =
      computeHash? 1 ("2024-01-02T03:04:05") ("patient-1")
        (.obj [("b", .int 2), ("a", .int 1)]) ("0") := by
  apply c6_key_order_independence
  rw [jsonEquiv]
  refine ⟨?_, ⟨[("a", .int 1), ("b", .int 2)], ?_, ?_⟩⟩
  · simp
  · rw [jsonEquivPairs, jsonEquivPairs, jsonEquivPairs]
    refine ⟨rfl, ?_, rfl, ?_, trivial⟩
    · rw [jsonEquiv.eq_def]
    · rw [jsonEquiv.eq_def]
  · exact List.Perm.swap ("b", JsonVal.int 2) ("a", JsonVal.int 1) []

/-! # Claim C4 (amended) -/

/-- C4 (amended): on a freshly built chain of length at least 2, if
`blocks[1].record` is mutated out-of-band to a value whose canonical
serialization differs from the original AND whose recomputed SHA-256
digest `d` differs from the stored hash (the digests agree only on a
SHA-256 collision, which the counting argument below shows cannot be
ruled out in general), then `validate()` returns ok=false with the
reason naming index 1 as a hash-mismatch failure. -/
theorem c4_tamper_detected (gts : String) (ops : List AddOp) (r2 : JsonVal) (d : String)
    (h2 : 2 ≤ (buildChain gts ops).chain.length)
    (hser : dumpsVal r2 ≠ dumpsVal ((buildChain gts ops).chain.getD 1 dummyBlock).record)
    (hd : computeHash? ((buildChain gts ops).chain.getD 1 dummyBlock).index
        ((buildChain gts ops).chain.getD 1 dummyBlock).timestamp
        ((buildChain gts ops).chain.getD 1 dummyBlock).patient_id r2
        ((buildChain gts ops).chain.getD 1 dummyBlock).previous_hash = some d)
    (hne : d ≠ ((buildChain gts ops).chain.getD 1 dummyBlock).hash) :
    (tamperRecord (buildChain gts ops) 1 r2).validate =
      .ok (false, some ("Hash mismatch at index 1: data was modified")) := by
  have hcl := chainLinked_build gts ops
  rw [Blockchain.validate]
  have hlen : (tamperRecord (buildChain gts ops) 1 r2).chain.length =
      (buildChain gts ops).chain.length := by
    show (listModify _ 1 _).length = _
    exact listModify_length _ _ _
  have hg0 : (tamperRecord (buildChain gts ops) 1 r2).chain.getD 0 dummyBlock =
      (buildChain gts ops).chain.getD 0 dummyBlock :=
    listModify_getD_ne _ _ _ _ _ (by omega)
  have hg1 : (tamperRecord (buildChain gts ops) 1 r2).chain.getD 1 dummyBlock =
      { (buildChain gts ops).chain.getD 1 dummyBlock with record := r2 } :=
    listModify_getD_eq _ _ _ _ (by omega)
  rw [validateFrom, dif_pos (by rw [hlen]; omega)]
  simp only []
  rw [show (1 : Nat) - 1 = 0 from rfl, hg0, hg1]
  rw [if_neg (not_not_intro (chainLinked_link2 hcl 1 (le_refl 1) (by omega)))]
  simp only [hd]
  rw [if_pos (Ne.symm hne)]
  rfl

theorem buildChain_single (gts : String) (op : AddOp) (hser2 : serializable op.record = true) :
    ∃ g b, buildChain gts [op] = ⟨[g, b], [(op.pid, [1])]⟩ ∧
      b.index = 1 ∧ b.timestamp = op.ts ∧ b.patient_id = op.pid ∧ b.record = op.record ∧
      b.previous_hash = g.hash ∧ BlockOK b ∧ BlockOK g ∧ g.index = 0 ∧ g.timestamp = gts ∧
      g.patient_id = "0" ∧ g.record = genesisRecord ∧ g.previous_hash = "0" := by
  obtain ⟨g, hg, hgi, hgt, hgp, hgr, hgph, hgok⟩ := init_eq gts
  have hne : (Blockchain.init gts).chain ≠ [] := by rw [hg]; simp
  obtain ⟨bc2, b, hok⟩ :=
    @addRecord_ok_exists (Blockchain.init gts) op.pid op.record op.ts hne hser2
  obtain ⟨last, hlast, hch, hpi, hidx, hts, hpid, hrec, hph, hbok⟩ := addRecord_ok_inv hok
  have hlast2 : last = g := by
    rw [hg] at hlast
    simp [List.getLast?] at hlast
    exact hlast.symm
  have hidx1 : b.index = 1 := by
    rw [hidx, hg]
    rfl
  have hbuild : buildChain gts [op] = bc2 := by
    rw [buildChain]
    rw [show ([op].foldl Blockchain.addOrKeep (Blockchain.init gts)) =
      (Blockchain.init gts).addOrKeep op from rfl]
    rcases addOrKeep_chain_cases (Blockchain.init gts) op with ⟨e, herr, -⟩ | ⟨bc3, b3, hok3, heq3⟩
    · rw [hok] at herr
      exact absurd herr (by simp)
    · rw [hok] at hok3
      rw [heq3]
      simp at hok3
      rw [← hok3.1]
  have hch2 : bc2.chain = [g, b] := by
    rw [hch, hg]
    rfl
  have hpi2 : bc2.patientIndex = [(op.pid, [1])] := by
    rw [hpi, hg]
    show [(op.pid, [b.index])] = [(op.pid, [1])]
    rw [hidx1]
  refine ⟨g, b, ?_, hidx1, hts, hpid, hrec, ?_, hbok, hgok, hgi, hgt, hgp, hgr, hgph⟩
  · rw [hbuild, show bc2 = ⟨bc2.chain, bc2.patientIndex⟩ from rfl, hch2, hpi2]
  · rw [hph, hlast2]

set_option maxRecDepth 100000

/-- Witness for C4 (amended) at a concrete chain: one append of a null
record, then mutating block 1's record to `true`; the three digests are
evaluated inside the kernel and the recomputed digest differs from the
stored hash, so validation reports the hash mismatch at index 1. -/
theorem c4_tamper_detected_witness :
    (tamperRecord (buildChain ("t0") [⟨"p1", .null, "t1"⟩]) 1 (.bool true)).validate =
      .ok (false, some ("Hash mismatch at index 1: data was modified")) := by
  obtain ⟨g, b, hbuild, hbi, hbt, hbp, hbr, hbph, hbok, hgok, hgi, hgt, hgp, hgr, hgph⟩ :=
    buildChain_single ("t0") ⟨"p1", .null, "t1"⟩ (by simp [serializable])
  have hG : computeHash? 0 ("t0") ("0") genesisRecord ("0") =
      some ("b9c3e1725222424611736cbed6f3f08505ee7613277026cac001b6370207d01c") := by
    simp only [computeHash?, hashPayload, genesisRecord, dumpsVal, dumpsPairs, Option.map_some']
    decide
  have hghash : g.hash =
      "b9c3e1725222424611736cbed6f3f08505ee7613277026cac001b6370207d01c" := by
    have h2 := hgok
    rw [BlockOK, hgi, hgt, hgp, hgr, hgph, hG] at h2
    exact (Option.some.inj h2).symm
  have hH : computeHash? 1 ("t1") ("p1") .null
      ("b9c3e1725222424611736cbed6f3f08505ee7613277026cac001b6370207d01c") =
      some ("4030c459f0556b1e521a71ef5fdec829bc4464c21dcbddafdf79dbf4646aba38") := by
    simp only [computeHash?, hashPayload, dumpsVal, dumpsPairs, Option.map_some']
    decide
  have hbhash : b.hash =
      "4030c459f0556b1e521a71ef5fdec829bc4464c21dcbddafdf79dbf4646aba38" := by
    have h2 := hbok
    rw [BlockOK, hbi, hbt, hbp, hbr, hbph, hghash] at h2
    rw [show (⟨"p1", .null, "t1"⟩ : AddOp).ts = "t1" from rfl,
      show (⟨"p1", .null, "t1"⟩ : AddOp).pid = "p1" from rfl,
      show (⟨"p1", .null, "t1"⟩ : AddOp).record = .null from rfl, hH] at h2
    exact (Option.some.inj h2).symm
  have hD : computeHash? 1 ("t1") ("p1") (.bool true)
      ("b9c3e1725222424611736cbed6f3f08505ee7613277026cac001b6370207d01c") =
      some ("6d19d58d88303cf7e5ac38589f608469ee837f86129a23c786b9e83875002b74") := by
    simp only [computeHash?, hashPayload, dumpsVal, dumpsPairs, Option.map_some']
    decide
  apply c4_tamper_detected ("t0") [⟨"p1", .null, "t1"⟩] (.bool true)
    ("6d19d58d88303cf7e5ac38589f608469ee837f86129a23c786b9e83875002b74")
  · rw [hbuild]
    simp
  · rw [hbuild]
    show dumpsVal (.bool true) ≠ dumpsVal b.record
    rw [hbr]
    show dumpsVal (.bool true) ≠ dumpsVal .null
    simp only [dumpsVal]
    decide
  · rw [hbuild]
    show computeHash? b.index b.timestamp b.patient_id (.bool true) b.previous_hash =
      some ("6d19d58d88303cf7e5ac38589f608469ee837f86129a23c786b9e83875002b74")
    rw [hbi, hbt, hbp, hbph, hghash]
    rw [show (⟨"p1", .null, "t1"⟩ : AddOp).ts = "t1" from rfl,
      show (⟨"p1", .null, "t1"⟩ : AddOp).pid = "p1" from rfl]
    exact hD
  · rw [hbuild]
    show ("6d19d58d88303cf7e5ac38589f608469ee837f86129a23c786b9e83875002b74" : String) ≠ b.hash
    rw [hbhash]
    decide

/-! # Pigeonhole: SHA-256 collisions cannot be excluded -/

theorem foldl_base256_lt (bs : List Nat) : ∀ (a : Nat), (∀ b ∈ bs, b < 256) →
    bs.foldl (fun a b => a * 256 + b) a < (a + 1) * 256 ^ bs.length := by
  induction bs with
  | nil =>
    intro a _
    simpa using Nat.lt_succ_self a
  | cons x xs ih =>
    intro a hb
    simp only [List.foldl_cons]
    have hx : x < 256 := hb x (List.mem_cons_self x xs)
    calc xs.foldl (fun a b => a * 256 + b) (a * 256 + x)
        < (a * 256 + x + 1) * 256 ^ xs.length :=
          ih (a * 256 + x) (fun b hbm => hb b (List.mem_cons_of_mem x hbm))
      _ ≤ ((a + 1) * 256) * 256 ^ xs.length :=
          Nat.mul_le_mul (by omega) (Nat.le_refl _)
      _ = (a + 1) * 256 ^ (x :: xs).length := by
          rw [List.length_cons, pow_succ]
          ring

theorem digestNat_lt (bs : List Nat) (hb : ∀ b ∈ bs, b < 256) (hl : bs.length = 32) :
    digestNat bs < 256 ^ 32 := by
  have h1 := foldl_base256_lt bs 0 hb
  rw [hl] at h1
  simpa [digestNat] using h1

theorem foldl_base256_inj (bs1 : List Nat) : ∀ (bs2 : List Nat) (a1 a2 : Nat),
    bs1.length = bs2.length → (∀ b ∈ bs1, b < 256) → (∀ b ∈ bs2, b < 256) →
    bs1.foldl (fun a b => a * 256 + b) a1 = bs2.foldl (fun a b => a * 256 + b) a2 →
    a1 = a2 ∧ bs1 = bs2 := by
  induction bs1 with
  | nil =>
    intro bs2 a1 a2 hl _ _ he
    cases bs2 with
    | nil => simp at he; exact ⟨he, rfl⟩
    | cons y ys => simp at hl
  | cons x xs ih =>
    intro bs2 a1 a2 hl hb1 hb2 he
    cases bs2 with
    | nil => simp at hl
    | cons y ys =>
      simp only [List.foldl_cons] at he
      have hl2 : xs.length = ys.length := by simpa using hl
      obtain ⟨hacc, hxs⟩ := ih ys (a1 * 256 + x) (a2 * 256 + y) hl2
        (fun b hbm => hb1 b (List.mem_cons_of_mem x hbm))
        (fun b hbm => hb2 b (List.mem_cons_of_mem y hbm)) he
      have hx : x < 256 := hb1 x (List.mem_cons_self x xs)
      have hy : y < 256 := hb2 y (List.mem_cons_self y ys)
      have hsplit : a1 = a2 ∧ x = y := by omega
      exact ⟨hsplit.1, by rw [hsplit.2, hxs]⟩

theorem digestNat_inj {bs1 bs2 : List Nat} (hl : bs1.length = bs2.length)
    (hb1 : ∀ b ∈ bs1, b < 256) (hb2 : ∀ b ∈ bs2, b < 256)
    (he : digestNat bs1 = digestNat bs2) : bs1 = bs2 :=
  (foldl_base256_inj bs1 bs2 0 0 hl hb1 hb2 he).2

theorem sha256Hex_eq_of_digestNat_eq {m1 m2 : List Nat}
    (h : digestNat (sha256Bytes m1) = digestNat (sha256Bytes m2)) :
    sha256Hex m1 = sha256Hex m2 := by
  have hb : sha256Bytes m1 = sha256Bytes m2 :=
    digestNat_inj (by rw [sha256Bytes_length, sha256Bytes_length])
      (sha256Bytes_lt m1) (sha256Bytes_lt m2) h
  unfold sha256Hex
  rw [hb]

theorem abList_length (k : Nat) : ∀ n, (abList k n).length = k := by
  induction k with
  | zero => intro n; rfl
  | succ k ih =>
    intro n
    rw [abList]
    simp [ih]

theorem abList_inj (k : Nat) : ∀ n1 n2 : Nat, n1 < 2 ^ k → n2 < 2 ^ k →
    abList k n1 = abList k n2 → n1 = n2 := by
  induction k with
  | zero =>
    intro n1 n2 h1 h2 _
    simp [pow_zero] at h1 h2
    omega
  | succ k ih =>
    intro n1 n2 h1 h2 he
    rw [abList, abList] at he
    simp only [List.cons.injEq] at he
    obtain ⟨hh, ht⟩ := he
    have hp : 2 ^ (k + 1) = 2 * 2 ^ k := by rw [pow_succ]; ring
    have hd1 : n1 / 2 < 2 ^ k := by omega
    have hd2 : n2 / 2 < 2 ^ k := by omega
    have hmod : n1 % 2 = n2 % 2 := by
      by_cases hm1 : n1 % 2 = 0 <;> by_cases hm2 : n2 % 2 = 0
      · omega
      · rw [if_pos hm1, if_neg hm2] at hh; exact absurd hh (by decide)
      · rw [if_neg hm1, if_pos hm2] at hh; exact absurd hh (by decide)
      · omega
    have := ih (n1 / 2) (n2 / 2) hd1 hd2 ht
    omega

theorem escChar_a : escChar 'a' = ['a'] := by decide

theorem escChar_b : escChar 'b' = ['b'] := by decide

theorem flatMap_escChar_abList (k : Nat) : ∀ n, (abList k n).flatMap escChar = abList k n := by
  induction k with
  | zero => intro n; rfl
  | succ k ih =>
    intro n
    rw [abList, List.flatMap_cons, ih]
    by_cases h : n % 2 = 0
    · rw [if_pos h, escChar_a]; rfl
    · rw [if_neg h, escChar_b]; rfl

theorem encStr_abString_inj {k n1 n2 : Nat} (h1 : n1 < 2 ^ k) (h2 : n2 < 2 ^ k)
    (he : encStr (abString k n1) = encStr (abString k n2)) : n1 = n2 := by
  apply abList_inj k n1 n2 h1 h2
  have hd2 : ('"' :: (abList k n1).flatMap escChar) ++ ['"'] =
      ('"' :: (abList k n2).flatMap escChar) ++ ['"'] := congrArg String.data he
  rw [flatMap_escChar_abList, flatMap_escChar_abList] at hd2
  simpa using hd2

/-- Pigeonhole: SHA-256 has only `256 ^ 32` possible digests, but the
257-character `a`/`b` record strings give more than that many distinct
payloads, so for any fixed `previous_hash` two distinct indices collide
on `compute_hash`. -/
theorem exists_record_collision (ph : String) :
    ∃ n1 n2 : Nat, n1 < 256 ^ 32 + 1 ∧ n2 < 256 ^ 32 + 1 ∧ n1 ≠ n2 ∧
      computeHash? 1 ("t1") ("p1") (.str (abString 257 n1)) ph =
        computeHash? 1 ("t1") ("p1") (.str (abString 257 n2)) ph := by
  have hcard : Fintype.card (Fin (256 ^ 32)) < Fintype.card (Fin (256 ^ 32 + 1)) := by
    rw [Fintype.card_fin, Fintype.card_fin]
    exact Nat.lt_succ_self _
  obtain ⟨n1, n2, hne, heq⟩ := Fintype.exists_ne_map_eq_of_card_lt
    (fun n : Fin (256 ^ 32 + 1) =>
      (⟨digestNat (sha256Bytes (utf8Encode
          ((dumpsVal (hashPayload 1 ("t1") ("p1") (.str (abString 257 n.val)) ph)).getD ""))),
        digestNat_lt _ (sha256Bytes_lt _) (sha256Bytes_length _)⟩ : Fin (256 ^ 32)))
    hcard
  refine ⟨n1.val, n2.val, n1.isLt, n2.isLt, fun h => hne (Fin.val_injective h), ?_⟩
  obtain ⟨h1, hh1⟩ := computeHash?_exists 1 ("t1") ("p1") (.str (abString 257 n1.val)) ph
    (by rw [serializable])
  obtain ⟨s1, hs1, hh1s⟩ := computeHash?_shape hh1
  obtain ⟨h2, hh2⟩ := computeHash?_exists 1 ("t1") ("p1") (.str (abString 257 n2.val)) ph
    (by rw [serializable])
  obtain ⟨s2, hs2, hh2s⟩ := computeHash?_shape hh2
  have hg1 : (dumpsVal (hashPayload 1 ("t1") ("p1") (.str (abString 257 n1.val)) ph)).getD ""
      = s1 := by rw [hs1]; rfl
  have hg2 : (dumpsVal (hashPayload 1 ("t1") ("p1") (.str (abString 257 n2.val)) ph)).getD ""
      = s2 := by rw [hs2]; rfl
  have hdig : digestNat (sha256Bytes (utf8Encode s1)) = digestNat (sha256Bytes (utf8Encode s2)) := by
    have hv := congrArg Fin.val heq
    rw [show (Fin.val
        (⟨digestNat (sha256Bytes (utf8Encode
          ((dumpsVal (hashPayload 1 ("t1") ("p1") (.str (abString 257 n1.val)) ph)).getD ""))),
          digestNat_lt _ (sha256Bytes_lt _) (sha256Bytes_length _)⟩ : Fin (256 ^ 32))) =
        digestNat (sha256Bytes (utf8Encode
          ((dumpsVal (hashPayload 1 ("t1") ("p1") (.str (abString 257 n1.val)) ph)).getD "")))
        from rfl] at hv
    rw [show (Fin.val
        (⟨digestNat (sha256Bytes (utf8Encode
          ((dumpsVal (hashPayload 1 ("t1") ("p1") (.str (abString 257 n2.val)) ph)).getD ""))),
          digestNat_lt _ (sha256Bytes_lt _) (sha256Bytes_length _)⟩ : Fin (256 ^ 32))) =
        digestNat (sha256Bytes (utf8Encode
          ((dumpsVal (hashPayload 1 ("t1") ("p1") (.str (abString 257 n2.val)) ph)).getD "")))
        from rfl] at hv
    rw [hg1, hg2] at hv
    exact hv
  have hhex : sha256Hex (utf8Encode s1) = sha256Hex (utf8Encode s2) :=
    sha256Hex_eq_of_digestNat_eq hdig
  rw [hh1, hh2, hh1s, hh2s, hhex]

/-- C4 as literally stated is refutable: it asserts detection for every
replacement record whose canonical serialization differs from the
original, which would make SHA-256 collision-free on these payloads;
by the pigeonhole argument above two distinct 257-character `a`/`b`
record strings share a digest, and mutating `blocks[1].record` from one
to the other leaves `validate()` reporting ok=true with no reason. -/
theorem c4_counterexample :
    ¬ (∀ (gts : String) (ops : List AddOp) (r2 : JsonVal),
        2 ≤ (buildChain gts ops).chain.length →
        serializable r2 = true →
        dumpsVal r2 ≠ dumpsVal ((buildChain gts ops).chain.getD 1 dummyBlock).record →
        (tamperRecord (buildChain gts ops) 1 r2).validate =
          .ok (false, some ("Hash mismatch at index 1: data was modified"))) := by
  intro H
  obtain ⟨g0, hg0, hg0i, hg0t, hg0p, hg0r, hg0ph, hg0ok⟩ := init_eq ("t0")
  obtain ⟨n1, n2, hb1, hb2, hne, hcoll⟩ := exists_record_collision g0.hash
  have hpow : 256 ^ 32 + 1 ≤ 2 ^ 257 := by norm_num
  have hb1n : n1 < 2 ^ 257 := by omega
  have hb2n : n2 < 2 ^ 257 := by omega
  obtain ⟨g, b, hbuild, hbi, hbt, hbp, hbr, hbph, hbok, hgok, hgi, hgt, hgp, hgr, hgph⟩ :=
    buildChain_single ("t0") ⟨"p1", .str (abString 257 n1), "t1"⟩ (by rw [serializable])
  have hgh : g.hash = g0.hash := by
    have e1 := hgok
    have e2 := hg0ok
    rw [BlockOK, hgi, hgt, hgp, hgr, hgph] at e1
    rw [BlockOK, hg0i, hg0t, hg0p, hg0r, hg0ph] at e2
    rw [e1] at e2
    exact Option.some.inj e2
  have hserH : dumpsVal (JsonVal.str (abString 257 n2)) ≠
      dumpsVal (((buildChain ("t0") [⟨"p1", .str (abString 257 n1), "t1"⟩]).chain.getD 1
        dummyBlock)).record := by
    rw [hbuild]
    show dumpsVal (JsonVal.str (abString 257 n2)) ≠ dumpsVal b.record
    rw [hbr]
    rw [show (⟨"p1", JsonVal.str (abString 257 n1), "t1"⟩ : AddOp).record
        = JsonVal.str (abString 257 n1) from rfl]
    simp only [dumpsVal]
    intro hcon
    exact hne ((encStr_abString_inj hb2n hb1n (Option.some.inj hcon)).symm)
  have hrec2 : computeHash? b.index b.timestamp b.patient_id (JsonVal.str (abString 257 n2))
      b.previous_hash = some b.hash := by
    rw [hbi, hbt, hbp, hbph, hgh]
    rw [show (⟨"p1", JsonVal.str (abString 257 n1), "t1"⟩ : AddOp).ts = "t1" from rfl,
        show (⟨"p1", JsonVal.str (abString 257 n1), "t1"⟩ : AddOp).pid = "p1" from rfl]
    rw [← hcoll]
    have e1 := hbok
    rw [BlockOK, hbi, hbt, hbp, hbr, hbph, hgh] at e1
    rw [show (⟨"p1", JsonVal.str (abString 257 n1), "t1"⟩ : AddOp).ts = "t1" from rfl,
        show (⟨"p1", JsonVal.str (abString 257 n1), "t1"⟩ : AddOp).pid = "p1" from rfl,
        show (⟨"p1", JsonVal.str (abString 257 n1), "t1"⟩ : AddOp).record
          = JsonVal.str (abString 257 n1) from rfl] at e1
    exact e1
  have hchain : (tamperRecord (buildChain ("t0") [⟨"p1", .str (abString 257 n1), "t1"⟩]) 1
      (JsonVal.str (abString 257 n2))).chain
      = [g, { b with record := JsonVal.str (abString 257 n2) }] := by
    rw [tamperRecord, hbuild]
    rfl
  have hval : (tamperRecord (buildChain ("t0") [⟨"p1", .str (abString 257 n1), "t1"⟩]) 1
      (JsonVal.str (abString 257 n2))).validate = .ok (true, none) := by
    rw [Blockchain.validate, hchain]
    rw [validateFrom, dif_pos (by simp)]
    simp only []
    rw [show (1 : Nat) - 1 = 0 from rfl]
    rw [show ([g, { b with record := JsonVal.str (abString 257 n2) }].getD 1 dummyBlock)
        = { b with record := JsonVal.str (abString 257 n2) } from rfl]
    rw [show ([g, { b with record := JsonVal.str (abString 257 n2) }].getD 0 dummyBlock)
        = g from rfl]
    rw [if_neg (not_not_intro
      (show ({ b with record := JsonVal.str (abString 257 n2) } : Block).previous_hash = g.hash
        from hbph))]
    simp only [hrec2]
    rw [if_neg (not_not_intro rfl)]
    rw [validateFrom, dif_neg (by simp)]
  have hH := H ("t0") [⟨"p1", .str (abString 257 n1), "t1"⟩] (JsonVal.str (abString 257 n2))
    (by rw [hbuild]; simp) (by rw [serializable]) hserH
  rw [hval] at hH
  simp at hH
